import Mathlib

/-!
# make-test-data: customers / orders fixture generator

A shallow embedding of `make-test-data/main.go` together with the properties
stated for it.

* Panics of the Go program (a non-positive argument of `rand.Intn`, an index
  out of range, a `make` length that is negative or needs more than `maxAlloc`
  bytes) are the value `none`.  Running out of memory is not modelled.
* The global `math/rand` source and the wall clock are explicit state
  (`World`), so that "every outcome of the random draws" is "every `World`".
* Go's `int` is taken to be 64 bits wide; the two sums of `generateOrders`
  whose operands come from the flags wrap around (`wrapInt`).  Counters that
  are bounded by the length of a slice are unbounded integers.
* Strings are sequences of Unicode characters (Go strings that are valid
  UTF-8); where the program counts bytes (the buffer of the CSV writer), the
  bytes of the UTF-8 encoding are counted.
* A `time.Time` is a Unix time in a location; the location is given by its
  `lookup` method, so that "every generation time" covers every time zone.
* The functions of the Go standard library the program calls (`rand.Intn`,
  `time.Now`, `AddDate`, `Format`, `strconv.Itoa`, `strings.Split`,
  `encoding/csv`, `os.Create`) are embedded next to the program's own
  functions, each under the name of the call it stands for.
-/

namespace MakeTestData

/-! ## Data model -/

/-- The Go struct `Customer`. -/
structure Customer where
  ID : Int
  Name : String
  Email : String
  deriving DecidableEq, Repr

/-- The Go struct `Order`. -/
structure Order where
  ID : Int
  CustomerID : Int
  ProductName : String
  Quantity : Int
  OrderDate : String
  Status : String
  deriving DecidableEq, Repr

/-! ## Machine integers -/

/-- Largest value of a 64-bit Go `int`. -/
def maxInt : Int := 2 ^ 63 - 1

/-- Two's-complement wrap-around of 64-bit `int` arithmetic. -/
def wrapInt (x : Int) : Int := (x + 2 ^ 63) % 2 ^ 64 - 2 ^ 63

/-- Go's slice / string indexing `xs[i]`: out of range is a panic. -/
def index {α : Type} (xs : List α) (i : Int) : Option α :=
  if i < 0 then none else xs[i.toNat]?

/-- The constant `maxAlloc` of the Go runtime on the 64-bit platforms (48
address bits): the largest size in bytes of one allocation. -/
def maxAlloc : Int := 2 ^ 48

/-- The check of `runtime.makeslice` behind `make([]T, n)` for elements of
`size` bytes: a negative length, or a size in bytes that overflows or exceeds
`maxAlloc`, is the panic `makeslice: len out of range`; otherwise the slice has
`n` elements.  Running out of memory (a fatal error that depends on the
machine) is not part of the model. -/
def makeslice (size n : Int) : Option Nat :=
  if n < 0 ∨ maxAlloc < size * n then none else some n.toNat

/-- Size in bytes of a `Customer` on a 64-bit platform: an `int` and two string
headers. -/
def customerSize : Int := 40

/-! ## The environment: random source and clock -/

/-- What `(*time.Location).lookup(sec)` yields, as far as `time.Date` and
`Format` look at it: the offset from UTC (in seconds) in effect at the Unix
time `sec`, and the Unix times `start` and `stop` between which that offset
is in effect (`start ≤ sec < stop`). -/
structure Zone where
  offset : Int
  start : Int
  stop : Int

/-- A time zone `*time.Location`, given by its method `lookup`. -/
structure Location where
  lookup : Int → Zone

/-- A value of `time.Time`: the seconds since the Unix epoch, the nanoseconds
within the second, and the location. -/
structure Time where
  sec : Int
  nsec : Int
  loc : Location

/-- State of the environment.  `draws` is the stream of raw values the global
`math/rand` source will yield from now on, `prng seed` the stream it yields
once seeded with `seed`, and `clock` the successive readings of `time.Now()`. -/
structure World where
  prng : Int → Nat → Nat
  draws : Nat → Nat
  clock : Nat → Time

/-- The method `UnixNano`, 64-bit `int` arithmetic. -/
def Time.unixNano (t : Time) : Int :=
  wrapInt (t.sec * 1000000000 + t.nsec)

/-- The wall-clock reading of `t` in its location, in seconds since
1970-01-01 00:00:00 of the local calendar: what `t.Date()` and `t.Clock()`
show (`sec + offset`, the method `abs`). -/
def Time.wall (t : Time) : Int :=
  t.sec + (t.loc.lookup t.sec).offset

/-- The local calendar day of `t`, in days since 1970-01-01. -/
def Time.day (t : Time) : Int :=
  t.wall / 86400

/-- The function `time.Date` on a wall-clock reading `wall` (seconds since
1970-01-01 00:00:00 of the local calendar, day and time of day already added
up): the Unix time it stands for in `loc`.  The offset is looked up at `wall`
taken as a Unix time; when the time found lies outside the interval in which
that offset is in effect, the offset in effect at the time found is used. -/
def dateUnix (loc : Location) (wall : Int) : Int :=
  let z := loc.lookup wall
  if z.offset ≠ 0 then
    let utc := wall - z.offset
    if utc < z.start ∨ z.stop ≤ utc then wall - (loc.lookup utc).offset
    else wall - z.offset
  else wall

/-- The method `t.AddDate(0, 0, days)`: `time.Date` on the date and clock of
`t` with `days` added to the day. -/
def Time.addDays (t : Time) (days : Int) : Time :=
  { sec := dateUnix t.loc (t.wall + days * 86400), nsec := t.nsec, loc := t.loc }

/-- The location `time.UTC`. -/
def utc : Location where
  lookup := fun _ => { offset := 0, start := -2 ^ 63, stop := 2 ^ 63 - 1 }

/-- The call `time.Now()`. -/
def timeNow (w : World) : Time × World :=
  (w.clock 0, { w with clock := fun k => w.clock (k + 1) })

/-- The call `rand.Seed(seed)`. -/
def randSeed (seed : Int) (w : World) : World :=
  { w with draws := w.prng seed }

/-- The call `rand.Intn(n)`: panics when `n <= 0`, otherwise yields a value of
`[0, n)` and advances the source. -/
def randIntn (n : Int) (w : World) : Option (Int × World) :=
  if n ≤ 0 then none
  else some ((w.draws 0 : Int) % n, { w with draws := fun k => w.draws (k + 1) })

/-! ## `randomString` and `generateCustomers` -/

/-- The constant `letters` of `randomString`. -/
def letters : List Char := "abcdefghijklmnopqrstuvwxyzABCDEFGHIJKLMNOPQRSTUVWXYZ".toList

/-- The loop `for i := range b` of `randomString`, with `k` positions left. -/
def randomStringLoop : Nat → World → Option (List Char × World)
  | 0, w => some ([], w)
  | k + 1, w =>
    match randIntn letters.length w with
    | none => none
    | some (r, w1) =>
      match index letters r with
      | none => none
      | some c =>
        match randomStringLoop k w1 with
        | none => none
        | some (cs, w2) => some (c :: cs, w2)

/-- The function `randomString`; `make([]byte, n)` panics when `makeslice`
refuses the length. -/
def randomString (n : Int) (w : World) : Option (String × World) :=
  match makeslice 1 n with
  | none => none
  | some k =>
    match randomStringLoop k w with
    | none => none
    | some (cs, w1) => some (String.mk cs, w1)

/-- The loop `for i := 0; i < numCustomers; i++` of `generateCustomers`, with
`k` iterations left and loop variable `i`. -/
def generateCustomersLoop : Nat → Int → World → Option (List Customer × World)
  | 0, _, w => some ([], w)
  | k + 1, i, w =>
    match randomString 10 w with
    | none => none
    | some (name, w1) =>
      match randomString 5 w1 with
      | none => none
      | some (user, w2) =>
        match generateCustomersLoop k (i + 1) w2 with
        | none => none
        | some (rest, w3) =>
          some ({ ID := i + 1, Name := name, Email := user ++ "@example.com" } :: rest, w3)

/-- The function `generateCustomers`; `make([]Customer, numCustomers)` panics
when `makeslice` refuses the count (negative, or more than `maxAlloc` bytes). -/
def generateCustomers (numCustomers : Int) (w : World) : Option (List Customer × World) :=
  match makeslice customerSize numCustomers with
  | none => none
  | some n => generateCustomersLoop n 0 w

/-! ## `generateOrders` -/

/-- The slice `products` of `generateOrders`. -/
def products : List String := ["Product A", "Product B", "Product C", "Product D"]

/-- Decimal digits of `n`, left-padded with zeros to `width` characters. -/
def padDigits (width n : Nat) : String :=
  let ds := Nat.toDigits 10 n
  String.mk (List.replicate (width - ds.length) '0' ++ ds)

/-- Civil date `(year, month, day)` of the day that lies `z` days after
1970-01-01 in the proleptic Gregorian calendar. -/
def civilFromDays (z : Int) : Int × Int × Int :=
  let z := z + 719468
  let era := z / 146097
  let doe := z % 146097
  let yoe := (doe - doe / 1460 + doe / 36524 - doe / 146096) / 365
  let y := yoe + era * 400
  let doy := doe - (365 * yoe + yoe / 4 - yoe / 100)
  let mp := (5 * doy + 2) / 153
  let d := doy - (153 * mp + 2) / 5 + 1
  let m := if mp < 10 then mp + 3 else mp - 9
  (if m ≤ 2 then y + 1 else y, m, d)

/-- The rendering `Format("2006-01-02")` of a calendar day. -/
def formatDate (z : Int) : String :=
  let (y, m, d) := civilFromDays z
  (if y < 0 then "-" else "") ++ padDigits 4 y.natAbs ++ "-" ++ padDigits 2 m.toNat ++ "-"
    ++ padDigits 2 d.toNat

/-- The expression `t.AddDate(0, 0, days).Format("2006-01-02")`: the local
calendar day of the time `AddDate` yields. -/
def addDaysFormat (t : Time) (days : Int) : String :=
  formatDate (t.addDays days).day

/-- The inner loop `for j := 0; j < numOrders; j++` of `generateOrders` for one
customer, with `k` iterations left, loop variable `j` and the running
`orderID`.  Yields the orders appended, the next `orderID` and the world. -/
def ordersOfCustomer (customer : Customer) (statuses : List String) (randomStatus : Bool) :
    Nat → Int → Int → World → Option (List Order × Int × World)
  | 0, _, orderID, w => some ([], orderID, w)
  | k + 1, j, orderID, w =>
    match randIntn statuses.length w with
    | none => none
    | some (r, w1) =>
      match index statuses r with
      | none => none
      | some drawn =>
        match (if !randomStatus then index statuses (Int.tmod j statuses.length)
               else some drawn) with
        | none => none
        | some status =>
          match randIntn products.length w1 with
          | none => none
          | some (p, w2) =>
            match index products p with
            | none => none
            | some productName =>
              match randIntn 9 w2 with
              | none => none
              | some (q, w3) =>
                match randIntn 365 (timeNow w3).2 with
                | none => none
                | some (d, w5) =>
                  match ordersOfCustomer customer statuses randomStatus k (j + 1)
                      (orderID + 1) w5 with
                  | none => none
                  | some (rest, nextID, w6) =>
                    some ({ ID := orderID
                            CustomerID := customer.ID
                            ProductName := productName
                            Quantity := q + 1
                            OrderDate := addDaysFormat (timeNow w3).1 (-d)
                            Status := status } :: rest, nextID, w6)

/-- The outer loop `for _, customer := range customers` of `generateOrders`.
`maxOrders - minOrders + 1` and `... + minOrders` are 64-bit `int` arithmetic. -/
def generateOrdersLoop (minOrders maxOrders : Int) (statuses : List String)
    (randomStatus : Bool) : List Customer → Int → World → Option (List Order × Int × World)
  | [], orderID, w => some ([], orderID, w)
  | customer :: rest, orderID, w =>
    match randIntn (wrapInt (maxOrders - minOrders + 1)) w with
    | none => none
    | some (r, w1) =>
      match ordersOfCustomer customer statuses randomStatus
          (wrapInt (r + minOrders)).toNat 0 orderID w1 with
      | none => none
      | some (block, nextID, w2) =>
        match generateOrdersLoop minOrders maxOrders statuses randomStatus rest nextID w2 with
        | none => none
        | some (more, lastID, w3) => some (block ++ more, lastID, w3)

/-- The function `generateOrders`. -/
def generateOrders (customers : List Customer) (minOrders maxOrders : Int)
    (statuses : List String) (randomStatus : Bool) (w : World) : Option (List Order × World) :=
  let w0 := randSeed (timeNow w).1.unixNano (timeNow w).2
  match generateOrdersLoop minOrders maxOrders statuses randomStatus customers 1 w0 with
  | none => none
  | some (orders, _, w1) => some (orders, w1)

/-! ## Sample environments -/

/-- A world whose raw draws are all `n` and whose clock always reads midnight
UTC of day `day`. -/
def constWorld (n : Nat) (day : Int) : World where
  prng := fun _ _ => n
  draws := fun _ => n
  clock := fun _ => { sec := day * 86400, nsec := 0, loc := utc }

/-- A world whose `k`-th raw draw is `k` (both before and after seeding) and
whose clock always reads midnight UTC of day `day`. -/
def countingWorld (day : Int) : World where
  prng := fun _ k => k
  draws := fun k => k
  clock := fun _ => { sec := day * 86400, nsec := 0, loc := utc }

/-- The predicate `unicode.IsSpace`. -/
def isSpace (c : Char) : Bool :=
  let n := c.toNat
  (0x09 ≤ n && n ≤ 0x0d) || n == 0x20 || n == 0x85 || n == 0xa0 || n == 0x1680 ||
    (0x2000 ≤ n && n ≤ 0x200a) || n == 0x2028 || n == 0x2029 || n == 0x202f ||
    n == 0x205f || n == 0x3000

/-- The bytes that force quoting in `fieldNeedsQuotes`. -/
def isSpecial (c : Char) : Bool :=
  c == '\n' || c == '\r' || c == '"' || c == ','

/-- The method `(*csv.Writer).fieldNeedsQuotes`. -/
def fieldNeedsQuotes (field : List Char) : Bool :=
  match field with
  | [] => false
  | c :: _ =>
    if field = ['\\', '.'] then true
    else if field.any isSpecial then true
    else isSpace c

/-- The body of a quoted field: every `"` is written twice, everything else
(with `UseCRLF = false` also `\r` and `\n`) as it is. -/
def escapeQuotes : List Char → List Char
  | [] => []
  | c :: cs => if c = '"' then '"' :: '"' :: escapeQuotes cs else c :: escapeQuotes cs

/-- What `Write` emits for one field. -/
def encodeField (field : String) : List Char :=
  if fieldNeedsQuotes field.data then '"' :: (escapeQuotes field.data ++ ['"'])
  else field.data

/-- The loop `for n, field := range record` of `Write`: a comma before every
field but the first. -/
def encodeFields : Nat → List String → List Char
  | _, [] => []
  | n, field :: rest =>
    (if n > 0 then [','] else []) ++ encodeField field ++ encodeFields (n + 1) rest

/-- What `(*csv.Writer).Write(record)` emits: the fields and a final `\n`. -/
def encodeRecord (record : List String) : List Char :=
  encodeFields 0 record ++ ['\n']

/-- What the successive calls of `Write` emit for all records. -/
def encodeAll : List (List String) → List Char
  | [] => []
  | record :: rest => encodeRecord record ++ encodeAll rest

/-! ## `encoding/csv`: the reader

`csv.NewReader(file).ReadAll()` with the default settings (`Comma = ','`,
`Comment = 0`, `FieldsPerRecord = 0`, `LazyQuotes = false`,
`TrimLeadingSpace = false`), reading from a text held in memory, so that the
only read error is `io.EOF`.  Loops carry a fuel counter; `csvReadAll` gives
them more fuel than the text has characters. -/

/-- Errors of the reader. -/
inductive CsvError where
  | bareQuote
  | quote
  | fieldCount
  | outOfFuel
  deriving DecidableEq, Repr

/-- The function `lengthNL`. -/
def lengthNL (b : List Char) : Nat :=
  if b.getLast? = some '\n' then 1 else 0

/-- The call `ReadSlice('\n')`: the text up to and including the first
newline (or all of it, when it has none), and what follows. -/
def readSlice : List Char → List Char × List Char
  | [] => ([], [])
  | c :: cs => if c = '\n' then ([c], cs) else (c :: (readSlice cs).1, (readSlice cs).2)

/-- The method `(*csv.Reader).readLine`: the line, whether the error is
`io.EOF`, and the unread text.  A trailing `\r` before the end of the text is
dropped and a final `\r\n` becomes `\n`. -/
def readLine (input : List Char) : List Char × Bool × List Char :=
  let line := (readSlice input).1
  let hitEnd := lengthNL line = 0
  let line1 :=
    if 0 < line.length ∧ hitEnd ∧ line.getLast? = some '\r' then line.dropLast else line
  let n := line1.length
  let line2 :=
    if 2 ≤ n ∧ line1[n - 2]? = some '\r' ∧ line1[n - 1]? = some '\n'
    then line1.take (n - 2) ++ ['\n'] else line1
  (line2, decide (line.length = 0 ∧ hitEnd), (readSlice input).2)

/-- The first loop of `readRecord`: read a line, skipping empty lines. -/
def skipEmptyLines : Nat → List Char → Except CsvError (List Char × Bool × List Char)
  | 0, _ => .error .outOfFuel
  | fuel + 1, input =>
    let r := readLine input
    if r.2.1 = false ∧ r.1.length = lengthNL r.1 then skipEmptyLines fuel r.2.2
    else .ok r

/-- The text of `cs` before the first `c`, and what follows that `c` when
there is one (`bytes.IndexByte` and the two slices taken at the index). -/
def splitAt (c : Char) : List Char → List Char × Option (List Char)
  | [] => ([], none)
  | d :: ds => if d = c then ([], some ds) else (d :: (splitAt c ds).1, (splitAt c ds).2)

/-- The loop `parseField:` of `readRecord`.  `quoted = none` is the top of the
loop (a field starts at `line`); `quoted = some buf` is the inner loop of a
quoted field whose text so far is `buf`.  `fields` are the fields completed so
far, `rest` is the unread text.  Yields the fields of the record and the unread
text. -/
def parseFields : Nat → Option (List Char) → List Char → List Char → List String →
    Except CsvError (List String × List Char)
  | 0, _, _, _, _ => .error .outOfFuel
  | fuel + 1, none, line, rest, fields =>
    if line.head? ≠ some '"' then
      -- non-quoted field
      match splitAt ',' line with
      | (field, some after) =>
        if '"' ∈ field then .error .bareQuote
        else parseFields fuel none after rest (fields ++ [String.mk field])
      | (_, none) =>
        let field := line.take (line.length - lengthNL line)
        if '"' ∈ field then .error .bareQuote
        else .ok (fields ++ [String.mk field], rest)
    else
      parseFields fuel (some []) line.tail rest fields
  | fuel + 1, some buf, line, rest, fields =>
    match splitAt '"' line with
    | (seg, some after) =>
      -- hit the next quote
      if after.head? = some '"' then
        parseFields fuel (some (buf ++ seg ++ ['"'])) after.tail rest fields
      else if after.head? = some ',' then
        parseFields fuel none after.tail rest (fields ++ [String.mk (buf ++ seg)])
      else if lengthNL after = after.length then
        .ok (fields ++ [String.mk (buf ++ seg)], rest)
      else .error .quote
    | (_, none) =>
      if 0 < line.length then
        -- hit the end of the line: copy it and read the next line
        parseFields fuel (some (buf ++ line)) (readLine rest).1 (readLine rest).2.2 fields
      else
        -- abrupt end of the text inside a quoted field
        .error .quote

/-- The method `(*csv.Reader).readRecord` without the field-count check:
`none` is `io.EOF`. -/
def readRecord (input : List Char) : Except CsvError (Option (List String × List Char)) :=
  match skipEmptyLines (input.length + 1) input with
  | .error e => .error e
  | .ok (line, eof, rest) =>
    if eof then .ok none
    else
      match parseFields (line.length + rest.length + 1) none line rest [] with
      | .error e => .error e
      | .ok (record, rest1) => .ok (some (record, rest1))

/-- The loop of `(*csv.Reader).ReadAll`, with the field-count check of
`readRecord`: `fieldsPerRecord = 0` until the first record has set it. -/
def readAllLoop : Nat → Nat → List Char → Except CsvError (List (List String))
  | 0, _, _ => .error .outOfFuel
  | fuel + 1, fieldsPerRecord, input =>
    match readRecord input with
    | .error e => .error e
    | .ok none => .ok []
    | .ok (some (record, rest)) =>
      if 0 < fieldsPerRecord ∧ record.length ≠ fieldsPerRecord then .error .fieldCount
      else
        match readAllLoop fuel (if 0 < fieldsPerRecord then fieldsPerRecord else record.length)
            rest with
        | .error e => .error e
        | .ok records => .ok (record :: records)

/-- The call `csv.NewReader(text).ReadAll()`. -/
def csvReadAll (text : List Char) : Except CsvError (List (List String)) :=
  readAllLoop (text.length + 1) 0 text

/-! ## `writeCSV` -/

/-- An error value handed out by the operating system. -/
structure GoError where
  msg : String
  deriving DecidableEq, Repr

/-- The file system as `writeCSV` sees it: the contents of the files, and for
every path whether `os.Create` fails and whether writing to the file fails
(with which error; a failing write writes nothing). -/
structure FileSystem where
  files : String → Option (List Char)
  createErr : String → Option GoError
  writeErr : String → Option GoError

/-- The file system in which the file `filename` has the contents `content`. -/
def FileSystem.setFile (fs : FileSystem) (filename : String) (content : List Char) :
    FileSystem :=
  { fs with files := fun path => if path = filename then some content else fs.files path }

/-- Size in bytes of the buffer of the `bufio.Writer` inside a `csv.Writer`. -/
def bufSize : Nat := 4096

/-- Number of bytes of a text in a Go string (UTF-8). -/
def byteLength (text : List Char) : Nat :=
  (text.map Char.utf8Size).sum

/-- One call of `writer.Write(record)` seen from the file: `handed` is the
output handed to the `bufio.Writer` by the earlier calls and `out` the
characters of the record.  The `bufio.Writer` writes to the file only once the
bytes handed to it no longer fit its buffer.  When writing to the file fails
(`werr`), that write is the first one, and the call reports its error; when
writing succeeds, no call reports an error. -/
def bufferedWrite (werr : Option GoError) (handed out : List Char) :
    Except GoError (List Char) :=
  match werr with
  | some e => if byteLength (handed ++ out) ≤ bufSize then .ok (handed ++ out) else .error e
  | none => .ok (handed ++ out)

/-- The loop `for _, record := range data` of `writeCSV`: the error returned
from inside the loop (if any) and the output handed to the `bufio.Writer`. -/
def writeRecords (werr : Option GoError) :
    List (List String) → List Char → Option GoError × List Char
  | [], handed => (none, handed)
  | record :: rest, handed =>
    match bufferedWrite werr handed (encodeRecord record) with
    | .error e => (some e, handed)
    | .ok handed1 => writeRecords werr rest handed1

/-- The file after the deferred `writer.Flush()`: when writing succeeds, all
the output handed to the `bufio.Writer` is in the file; when writing fails,
nothing has reached the file.  The error of `Flush` is not looked at. -/
def flushDeferred (werr : Option GoError) (handed : List Char) : List Char :=
  match werr with
  | some _ => []
  | none => handed

/-- The function `writeCSV`: the returned error (`none` is `nil`) and the file
system afterwards.  `os.Create` truncates the file; the deferred `Flush` and
`Close` run on every return after it. -/
def writeCSV (filename : String) (data : List (List String)) (fs : FileSystem) :
    Option GoError × FileSystem :=
  match fs.createErr filename with
  | some e => (some e, fs)
  | none =>
    let r := writeRecords (fs.writeErr filename) data []
    (r.1, fs.setFile filename (flushDeferred (fs.writeErr filename) r.2))
/-! ## `main` -/

/-- The function `strconv.Itoa`. -/
def itoa (i : Int) : String :=
  if i < 0 then "-" ++ String.mk (Nat.toDigits 10 i.natAbs)
  else String.mk (Nat.toDigits 10 i.natAbs)

/-- The call `strings.Split(s, sep)` for a separator of one character. -/
def splitOnChar (sep : Char) : List Char → List (List Char)
  | [] => [[]]
  | c :: cs =>
    if c = sep then [] :: splitOnChar sep cs
    else
      match splitOnChar sep cs with
      | [] => [[c]]
      | piece :: pieces => (c :: piece) :: pieces

/-- The call `strings.Split(s, ",")`. -/
def stringsSplit (s : String) : List String :=
  (splitOnChar ',' s.data).map String.mk

/-- The command-line flags after `flag.Parse()`. -/
structure Flags where
  customers : Int
  minOrders : Int
  maxOrders : Int
  statuses : String
  randomStatus : Bool

/-- The flag defaults. -/
def defaultFlags : Flags :=
  { customers := 10, minOrders := 5, maxOrders := 10, statuses := "", randomStatus := true }

/-- The rows `customerCSV` built by `main`. -/
def customerCSV (customers : List Customer) : List (List String) :=
  ["customer_id", "customer_name", "email"] ::
    customers.map (fun customer => [itoa customer.ID, customer.Name, customer.Email])

/-- The rows `orderCSV` built by `main`. -/
def orderCSV (orders : List Order) : List (List String) :=
  ["order_id", "customer_id", "product_name", "quantity", "order_date", "status"] ::
    orders.map (fun order =>
      [itoa order.ID, itoa order.CustomerID, order.ProductName, itoa order.Quantity,
        order.OrderDate, order.Status])

/-- The first part of `main`, up to the two row sequences: the generated
customers and orders, `customerCSV`, `orderCSV` and the world. -/
def mainRows (flags : Flags) (w : World) :
    Option (List Customer × List Order × List (List String) × List (List String) × World) :=
  let statuses :=
    if flags.statuses = "" then "Pending,Processing,Shipped,Delivered" else flags.statuses
  match generateCustomers flags.customers w with
  | none => none
  | some (customers, w1) =>
    match generateOrders customers flags.minOrders flags.maxOrders (stringsSplit statuses)
        flags.randomStatus w1 with
    | none => none
    | some (orders, w2) => some (customers, orders, customerCSV customers, orderCSV orders, w2)

/-- The function `main`: what it prints and the file system afterwards
(`none` when it panics). -/
def main (flags : Flags) (w : World) (fs : FileSystem) : Option (List String × FileSystem) :=
  match mainRows flags w with
  | none => none
  | some (_, _, customerRows, orderRows, _) =>
    let r1 := writeCSV "customers.csv" customerRows fs
    let out1 :=
      match r1.1 with
      | some e => ["Error writing customers.csv: " ++ e.msg]
      | none => []
    let r2 := writeCSV "orders.csv" orderRows r1.2
    let out2 :=
      match r2.1 with
      | some e => ["Error writing orders.csv: " ++ e.msg]
      | none => []
    some (out1 ++ out2 ++ ["顧客マスタデータと注文データがCSVファイルとして保存されました。"], r2.2)

/-- A file system without files in which nothing fails. -/
def emptyFS : FileSystem where
  files := fun _ => none
  createErr := fun _ => none
  writeErr := fun _ => none

/-- A file system without files in which files can be created but every write
to a file fails (a full disk). -/
def fullDiskFS : FileSystem where
  files := fun _ => none
  createErr := fun _ => none
  writeErr := fun _ => some { msg := "no space left on device" }

/-- A file system without files in which no file can be created. -/
def readOnlyFS : FileSystem where
  files := fun _ => none
  createErr := fun _ => some { msg := "read-only file system" }
  writeErr := fun _ => none


/-- A file system without files in which `customers.csv` cannot be created and
every other file can be created and written. -/
def customersLockedFS : FileSystem where
  files := fun _ => none
  createErr := fun path =>
    if path = "customers.csv" then some { msg := "permission denied" } else none
  writeErr := fun _ => none

/-- The flags `-customers=0 -minOrders=10 -maxOrders=5`. -/
def emptyRunFlags : Flags :=
  { customers := 0, minOrders := 10, maxOrders := 5, statuses := "", randomStatus := true }
/-! ## Invariants of the generated orders -/

/-- Facts about one generated order: `id` is the running order id and `j` the
loop variable of the inner loop when the order was built. -/
def orderInv (c : Customer) (st : List String) (rs : Bool) (id j : Int) (o : Order) : Prop :=
  o.ID = id ∧ o.CustomerID = c.ID ∧ 1 ≤ o.Quantity ∧ o.Quantity ≤ 9 ∧
    o.Status ∈ st ∧ o.ProductName ∈ products ∧
    (rs = false → index st (Int.tmod j st.length) = some o.Status) ∧
    (∃ t d, 0 ≤ d ∧ d ≤ 364 ∧ o.OrderDate = addDaysFormat t (-d))

/-- Facts about the block of orders generated for customer `c`: its length is
a drawn per-customer count, and its `n`-th order was built with `j = n`. -/
def blockInv (mn mx : Int) (st : List String) (rs : Bool) (c : Customer)
    (b : List Order) : Prop :=
  (∃ r w0 w1, randIntn (wrapInt (mx - mn + 1)) w0 = some (r, w1) ∧
      b.length = (wrapInt (r + mn)).toNat) ∧
    ∀ (n : Nat) (o : Order), b[n]? = some o → ∃ id, orderInv c st rs id n o


/-- Whether the text contains a carriage return immediately followed by a line
feed. -/
def hasCRLF : List Char → Bool
  | [] => false
  | c :: cs => (c == '\r' && cs.head? == some '\n') || hasCRLF cs

/-- A text without `\r\n` that does not end in a carriage return: appending
anything free of `\r\n` to it creates no `\r\n`. -/
def crSafe (s : List Char) : Prop :=
  hasCRLF s = false ∧ s.getLast? ≠ some '\r'

/-- Two orders that agree in everything but (possibly) the status. -/
def sameButStatus (o1 o2 : Order) : Prop :=
  o1.ID = o2.ID ∧ o1.CustomerID = o2.CustomerID ∧ o1.ProductName = o2.ProductName ∧
    o1.Quantity = o2.Quantity ∧ o1.OrderDate = o2.OrderDate

/-- Two runs of a loop of `generateOrders` that both panic, or both return, with
orders that agree up to the status, the same next order id and the same state
of the random source and the clock. -/
def sameRun (a b : Option (List Order × Int × World)) : Prop :=
  match a, b with
  | some (os1, n1, w1), some (os2, n2, w2) =>
    List.Forall₂ sameButStatus os1 os2 ∧ n1 = n2 ∧ w1 = w2
  | none, none => True
  | _, _ => False

theorem randIntn_inv {n : Int} {w : World} {r : Int} {w1 : World}
    (h : randIntn n w = some (r, w1)) : 0 < n ∧ 0 ≤ r ∧ r < n := by
  unfold randIntn at h
  split at h
  · simp at h
  · rename_i hn
    simp only [Option.some.injEq, Prod.mk.injEq] at h
    have hpos : 0 < n := by omega
    refine ⟨hpos, ?_, ?_⟩
    · rw [← h.1]; exact Int.emod_nonneg _ (by omega)
    · rw [← h.1]; exact Int.emod_lt_of_pos _ hpos

theorem randIntn_total {n : Int} (w : World) (hn : 0 < n) :
    ∃ r w1, randIntn n w = some (r, w1) := by
  unfold randIntn
  rw [if_neg (by omega)]
  exact ⟨_, _, rfl⟩

theorem index_mem {α : Type} {xs : List α} {i : Int} {x : α}
    (h : index xs i = some x) : x ∈ xs := by
  unfold index at h
  split at h
  · simp at h
  · exact List.getElem?_mem h

theorem index_total {α : Type} (xs : List α) {i : Int} (h0 : 0 ≤ i) (h1 : i < xs.length) :
    ∃ x, index xs i = some x := by
  unfold index
  rw [if_neg (by omega)]
  have : i.toNat < xs.length := by omega
  exact ⟨xs[i.toNat], List.getElem?_eq_getElem this⟩

theorem ordersOfCustomer_step {c : Customer} {st : List String} {rs : Bool} {k : Nat}
    {j oid : Int} {w : World} {os : List Order} {nid : Int} {w6 : World}
    (h : ordersOfCustomer c st rs (k + 1) j oid w = some (os, nid, w6)) :
    ∃ o rest w5, os = o :: rest ∧
      ordersOfCustomer c st rs k (j + 1) (oid + 1) w5 = some (rest, nid, w6) ∧
      o.ID = oid ∧ o.CustomerID = c.ID ∧ 1 ≤ o.Quantity ∧ o.Quantity ≤ 9 ∧
      o.Status ∈ st ∧ o.ProductName ∈ products ∧
      (rs = false → index st (Int.tmod j st.length) = some o.Status) ∧
      (∃ t d, 0 ≤ d ∧ d ≤ 364 ∧ o.OrderDate = addDaysFormat t (-d)) := by
  rw [ordersOfCustomer] at h
  rcases h1 : randIntn st.length w with _ | ⟨r, w1⟩
  · simp [h1] at h
  rcases h2 : index st r with _ | drawn
  · simp [h1, h2] at h
  rcases h3 : (if rs = false then index st (Int.tmod j st.length) else some drawn) with _ | status
  · simp [h1, h2, h3] at h
  rcases h4 : randIntn products.length w1 with _ | ⟨p, w2⟩
  · simp [h1, h2, h3, h4] at h
  rcases h5 : index products p with _ | pn
  · simp [h1, h2, h3, h4, h5] at h
  rcases h6 : randIntn 9 w2 with _ | ⟨q, w3⟩
  · simp [h1, h2, h3, h4, h5, h6] at h
  rcases h7 : randIntn 365 (timeNow w3).2 with _ | ⟨d, w5⟩
  · simp [h1, h2, h3, h4, h5, h6, h7] at h
  rcases h8 : ordersOfCustomer c st rs k (j + 1) (oid + 1) w5 with _ | ⟨rest, nid1, w7⟩
  · simp [h1, h2, h3, h4, h5, h6, h7, h8] at h
  simp [h1, h2, h3, h4, h5, h6, h7, h8] at h
  obtain ⟨hos, hnid, hw⟩ := h
  subst hos hnid hw
  have hq := randIntn_inv h6
  have hd := randIntn_inv h7
  refine ⟨_, rest, w5, rfl, h8, rfl, rfl, ?_, ?_, ?_, index_mem h5, ?_, ⟨_, d, hd.2.1, ?_, rfl⟩⟩
  · show 1 ≤ q + 1
    omega
  · show q + 1 ≤ 9
    omega
  · show status ∈ st
    cases rs
    · simp at h3; exact index_mem h3
    · simp at h3; rw [← h3]; exact index_mem h2
  · intro hrs
    subst hrs
    simpa using h3
  · omega


theorem ordersOfCustomer_spec {c : Customer} {st : List String} {rs : Bool} (k : Nat) :
    ∀ {j oid : Int} {w : World} {os : List Order} {nid : Int} {w6 : World},
      ordersOfCustomer c st rs k j oid w = some (os, nid, w6) →
      os.length = k ∧ nid = oid + k ∧
        ∀ (n : Nat) (o : Order), os[n]? = some o → orderInv c st rs (oid + n) (j + n) o := by
  induction k with
  | zero =>
    intro j oid w os nid w6 h
    simp only [ordersOfCustomer, Option.some.injEq, Prod.mk.injEq] at h
    obtain ⟨hos, hnid, -⟩ := h
    subst hos hnid
    simp
  | succ k ih =>
    intro j oid w os nid w6 h
    obtain ⟨o, rest, w5, hos, hrest, h1, h2, h3, h4, h5, h6, h7, h8⟩ := ordersOfCustomer_step h
    obtain ⟨hlen, hnid, hall⟩ := ih hrest
    subst hos
    refine ⟨by simp [hlen], by rw [hnid]; push_cast; ring, ?_⟩
    intro n o1 hn
    cases n with
    | zero =>
      simp only [List.getElem?_cons_zero, Option.some.injEq] at hn
      subst hn
      simpa [orderInv] using ⟨h1, h2, h3, h4, h5, h6, h7, h8⟩
    | succ m =>
      simp only [List.getElem?_cons_succ] at hn
      have := hall m o1 hn
      have e1 : oid + ((m + 1 : Nat) : Int) = oid + 1 + m := by push_cast; ring
      have e2 : j + ((m + 1 : Nat) : Int) = j + 1 + m := by push_cast; ring
      rw [e1, e2]
      exact this

theorem ordersOfCustomer_total (c : Customer) {st : List String} (rs : Bool) (hst : st ≠ [])
    (k : Nat) : ∀ (j oid : Int) (w : World), 0 ≤ j →
      ∃ res, ordersOfCustomer c st rs k j oid w = some res := by
  have hlen : (0 : Int) < st.length := by
    have : 0 < st.length := List.length_pos.mpr hst
    omega
  induction k with
  | zero => intro j oid w _; exact ⟨_, rfl⟩
  | succ k ih =>
    intro j oid w hj
    obtain ⟨r, w1, h1⟩ := randIntn_total w hlen
    obtain ⟨drawn, h2⟩ := index_total st (randIntn_inv h1).2.1 (randIntn_inv h1).2.2
    obtain ⟨cyc, h2c⟩ : ∃ x, index st (Int.tmod j st.length) = some x := by
      rw [Int.tmod_eq_emod hj (by omega)]
      exact index_total st (Int.emod_nonneg _ (by omega)) (Int.emod_lt_of_pos _ hlen)
    obtain ⟨p, w2, h4⟩ := randIntn_total (n := products.length) w1 (by decide)
    obtain ⟨pn, h5⟩ := index_total products (randIntn_inv h4).2.1 (randIntn_inv h4).2.2
    obtain ⟨q, w3, h6⟩ := randIntn_total (n := 9) w2 (by decide)
    obtain ⟨d, w5, h7⟩ := randIntn_total (n := 365) (timeNow w3).2 (by decide)
    obtain ⟨⟨rest, nid, w6⟩, h8⟩ := ih (j + 1) (oid + 1) w5 (by omega)
    rw [ordersOfCustomer]
    cases rs <;> simp [h1, h2, h2c, h4, h5, h6, h7, h8]

theorem generateOrdersLoop_step {mn mx : Int} {st : List String} {rs : Bool} {c : Customer}
    {cs : List Customer} {oid : Int} {w : World} {os : List Order} {lid : Int} {w3 : World}
    (h : generateOrdersLoop mn mx st rs (c :: cs) oid w = some (os, lid, w3)) :
    ∃ r w1 block nid w2 more,
      randIntn (wrapInt (mx - mn + 1)) w = some (r, w1) ∧
      ordersOfCustomer c st rs (wrapInt (r + mn)).toNat 0 oid w1 = some (block, nid, w2) ∧
      generateOrdersLoop mn mx st rs cs nid w2 = some (more, lid, w3) ∧
      os = block ++ more := by
  rw [generateOrdersLoop] at h
  rcases h1 : randIntn (wrapInt (mx - mn + 1)) w with _ | ⟨r, w1⟩
  · simp [h1] at h
  rcases h2 : ordersOfCustomer c st rs (wrapInt (r + mn)).toNat 0 oid w1 with _ | ⟨block, nid, w2⟩
  · simp [h1, h2] at h
  rcases h3 : generateOrdersLoop mn mx st rs cs nid w2 with _ | ⟨more, lid1, w4⟩
  · simp [h1, h2, h3] at h
  simp only [h1, h2, h3, Option.some.injEq, Prod.mk.injEq] at h
  obtain ⟨hos, hlid, hw⟩ := h
  subst hos hlid hw
  exact ⟨r, w1, block, nid, w2, more, rfl, h2, h3, rfl⟩

theorem wrapInt_eq_self {x : Int} (h0 : -2 ^ 63 ≤ x) (h1 : x < 2 ^ 63) : wrapInt x = x := by
  unfold wrapInt
  omega

/-- Under `0 ≤ mn ≤ mx ≤ maxInt`, a successful draw of the per-customer count
yields a count between `mn` and `mx`. -/
theorem count_bounds {mn mx r : Int} {w w1 : World} (h0 : 0 ≤ mn) (h1 : mn ≤ mx)
    (h2 : mx ≤ maxInt) (h : randIntn (wrapInt (mx - mn + 1)) w = some (r, w1)) :
    mn ≤ ((wrapInt (r + mn)).toNat : Int) ∧ ((wrapInt (r + mn)).toNat : Int) ≤ mx := by
  have hr := randIntn_inv h
  unfold maxInt at h2
  have hw : wrapInt (mx - mn + 1) = mx - mn + 1 := by
    by_cases hc : mx - mn + 1 < 2 ^ 63
    · exact wrapInt_eq_self (by omega) hc
    · exfalso
      have : mx - mn + 1 = 2 ^ 63 := by omega
      rw [this] at hr
      have : wrapInt (2 ^ 63) = -2 ^ 63 := by decide
      omega
  rw [hw] at hr
  rw [wrapInt_eq_self (by omega) (by omega)]
  omega


theorem generateOrdersLoop_ids {mn mx : Int} {st : List String} {rs : Bool}
    (cs : List Customer) :
    ∀ {oid : Int} {w : World} {os : List Order} {lid : Int} {w3 : World},
      generateOrdersLoop mn mx st rs cs oid w = some (os, lid, w3) →
      lid = oid + os.length ∧ ∀ (n : Nat) (o : Order), os[n]? = some o → o.ID = oid + n := by
  induction cs with
  | nil =>
    intro oid w os lid w3 h
    simp only [generateOrdersLoop, Option.some.injEq, Prod.mk.injEq] at h
    obtain ⟨hos, hlid, -⟩ := h
    subst hos hlid
    simp
  | cons c cs ih =>
    intro oid w os lid w3 h
    obtain ⟨r, w1, block, nid, w2, more, -, hb, hm, hos⟩ := generateOrdersLoop_step h
    obtain ⟨hlen, hnid, hall⟩ := ordersOfCustomer_spec _ hb
    obtain ⟨hlid, hmore⟩ := ih hm
    subst hos
    refine ⟨by rw [hlid, hnid, List.length_append, hlen]; push_cast; ring, ?_⟩
    intro n o hn
    by_cases hlt : n < block.length
    · rw [List.getElem?_append_left hlt] at hn
      exact (hall n o hn).1
    · rw [List.getElem?_append_right (by omega)] at hn
      rw [hmore _ o hn, hnid, ← hlen]
      have : ((n - block.length : Nat) : Int) = (n : Int) - block.length := by omega
      rw [this]
      ring

theorem generateOrdersLoop_blocks {mn mx : Int} {st : List String} {rs : Bool}
    (cs : List Customer) :
    ∀ {oid : Int} {w : World} {os : List Order} {lid : Int} {w3 : World},
      generateOrdersLoop mn mx st rs cs oid w = some (os, lid, w3) →
      ∃ blocks : List (List Order), os = blocks.flatten ∧
        List.Forall₂ (blockInv mn mx st rs) cs blocks := by
  induction cs with
  | nil =>
    intro oid w os lid w3 h
    simp only [generateOrdersLoop, Option.some.injEq, Prod.mk.injEq] at h
    exact ⟨[], by simp [← h.1], List.Forall₂.nil⟩
  | cons c cs ih =>
    intro oid w os lid w3 h
    obtain ⟨r, w1, block, nid, w2, more, hr, hb, hm, hos⟩ := generateOrdersLoop_step h
    obtain ⟨hlen, -, hall⟩ := ordersOfCustomer_spec _ hb
    obtain ⟨blocks, hflat, hfor⟩ := ih hm
    refine ⟨block :: blocks, by simp [hos, hflat], List.Forall₂.cons ⟨⟨r, w, w1, hr, hlen⟩, ?_⟩ hfor⟩
    intro n o hn
    have := hall n o hn
    rw [zero_add] at this
    exact ⟨_, this⟩

theorem generateOrdersLoop_total {mn mx : Int} {st : List String} (rs : Bool) (hst : st ≠ [])
    (hpos : 0 < wrapInt (mx - mn + 1)) (cs : List Customer) :
    ∀ (oid : Int) (w : World), ∃ res, generateOrdersLoop mn mx st rs cs oid w = some res := by
  induction cs with
  | nil => intro oid w; exact ⟨_, rfl⟩
  | cons c cs ih =>
    intro oid w
    obtain ⟨r, w1, h1⟩ := randIntn_total w hpos
    obtain ⟨⟨block, nid, w2⟩, h2⟩ :=
      ordersOfCustomer_total c rs hst (wrapInt (r + mn)).toNat 0 oid w1 (le_refl 0)
    obtain ⟨⟨more, lid, w3⟩, h3⟩ := ih nid w2
    rw [generateOrdersLoop]
    simp [h1, h2, h3]

theorem generateOrders_inv {cs : List Customer} {mn mx : Int} {st : List String} {rs : Bool}
    {w : World} {os : List Order} {w1 : World}
    (h : generateOrders cs mn mx st rs w = some (os, w1)) :
    ∃ w0 lid, generateOrdersLoop mn mx st rs cs 1 w0 = some (os, lid, w1) := by
  unfold generateOrders at h
  simp only at h
  split at h
  · simp at h
  · rename_i os1 lid w2 heq
    simp only [Option.some.injEq, Prod.mk.injEq] at h
    obtain ⟨h1, h2⟩ := h
    subst h1 h2
    exact ⟨_, lid, heq⟩

theorem generateOrders_total (cs : List Customer) (mn mx : Int) (st : List String) (rs : Bool)
    (w : World) (hst : st ≠ []) (hle : mn ≤ mx) (hno : mx - mn < maxInt) :
    ∃ os w1, generateOrders cs mn mx st rs w = some (os, w1) := by
  have hpos : 0 < wrapInt (mx - mn + 1) := by
    unfold maxInt at hno
    rw [wrapInt_eq_self (by omega) (by omega)]
    omega
  obtain ⟨⟨os, lid, w1⟩, h⟩ := generateOrdersLoop_total rs hst hpos cs 1
    (randSeed (timeNow w).1.unixNano (timeNow w).2)
  exact ⟨os, w1, by simp [generateOrders, h]⟩

theorem blockInv_bounds {mn mx : Int} {st : List String} {rs : Bool} {c : Customer}
    {b : List Order} (h0 : 0 ≤ mn) (h1 : mn ≤ mx) (h2 : mx ≤ maxInt)
    (h : blockInv mn mx st rs c b) : mn ≤ (b.length : Int) ∧ (b.length : Int) ≤ mx := by
  obtain ⟨⟨r, w0, w1, hr, hlen⟩, -⟩ := h
  rw [hlen]
  exact count_bounds h0 h1 h2 hr

/-! ## Lemmas on calendar dates -/

theorem randomStringLoop_total (k : Nat) :
    ∀ w : World, ∃ cs w1, randomStringLoop k w = some (cs, w1) ∧ cs.length = k := by
  induction k with
  | zero => intro w; exact ⟨[], w, rfl, rfl⟩
  | succ k ih =>
    intro w
    obtain ⟨r, w1, h1⟩ := randIntn_total (n := letters.length) w (by decide)
    obtain ⟨c, h2⟩ := index_total letters (randIntn_inv h1).2.1 (randIntn_inv h1).2.2
    obtain ⟨cs, w2, h3, hlen⟩ := ih w1
    exact ⟨c :: cs, w2, by rw [randomStringLoop]; simp [h1, h2, h3], by simp [hlen]⟩

theorem makeslice_of_le {size n : Int} (hn : 0 ≤ n) (hsize : size * n ≤ maxAlloc) :
    makeslice size n = some n.toNat := by
  unfold makeslice
  rw [if_neg (by omega)]

theorem makeslice_inv {size n : Int} {k : Nat} (h : makeslice size n = some k) :
    0 ≤ n ∧ size * n ≤ maxAlloc ∧ k = n.toNat := by
  unfold makeslice at h
  split at h
  · exact Option.noConfusion h
  · rename_i hcond
    simp only [Option.some.injEq] at h
    exact ⟨by omega, by omega, h.symm⟩

theorem randomString_total {n : Int} (hn : 0 ≤ n) (hsize : n ≤ maxAlloc) (w : World) :
    ∃ s w1, randomString n w = some (s, w1) ∧ (s.length : Int) = n := by
  obtain ⟨cs, w1, h, hlen⟩ := randomStringLoop_total n.toNat w
  refine ⟨String.mk cs, w1, ?_, ?_⟩
  · unfold randomString
    rw [makeslice_of_le hn (by omega)]
    simp [h]
  · show ((cs.length : Nat) : Int) = n
    omega

theorem generateCustomersLoop_spec (k : Nat) :
    ∀ (i : Int) (w : World), ∃ cs w1, generateCustomersLoop k i w = some (cs, w1) ∧
      cs.length = k ∧ ∀ (n : Nat) (c : Customer), cs[n]? = some c → c.ID = i + n + 1 := by
  induction k with
  | zero => intro i w; exact ⟨[], w, rfl, rfl, by simp⟩
  | succ k ih =>
    intro i w
    obtain ⟨name, w1, h1, -⟩ := randomString_total (n := 10) (by decide) (by decide) w
    obtain ⟨user, w2, h2, -⟩ := randomString_total (n := 5) (by decide) (by decide) w1
    obtain ⟨rest, w3, h3, hlen, hall⟩ := ih (i + 1) w2
    refine ⟨{ ID := i + 1, Name := name, Email := user ++ "@example.com" } :: rest, w3,
      by rw [generateCustomersLoop]; simp only [h1, h2, h3], by simp [hlen], ?_⟩
    intro n c hn
    cases n with
    | zero =>
      simp only [List.getElem?_cons_zero, Option.some.injEq] at hn
      subst hn
      simp
    | succ m =>
      simp only [List.getElem?_cons_succ] at hn
      rw [hall m c hn]
      push_cast
      ring

theorem generateCustomers_spec {N : Int} (hN : 0 ≤ N) (hsize : customerSize * N ≤ maxAlloc)
    (w : World) :
    ∃ cs w1, generateCustomers N w = some (cs, w1) ∧ (cs.length : Int) = N ∧
      ∀ (n : Nat) (c : Customer), cs[n]? = some c → c.ID = n + 1 := by
  obtain ⟨cs, w1, h, hlen, hall⟩ := generateCustomersLoop_spec N.toNat 0 w
  refine ⟨cs, w1, ?_, by omega, ?_⟩
  · unfold generateCustomers
    rw [makeslice_of_le hN hsize]
    exact h
  · intro n c hn
    rw [hall n c hn]
    ring

/-- What a returned customer sequence looks like: the count was accepted by
`makeslice`, and the sequence has that many customers with the ids `1, 2, …`. -/
theorem generateCustomers_inv {N : Int} {w : World} {cs : List Customer} {w1 : World}
    (h : generateCustomers N w = some (cs, w1)) :
    0 ≤ N ∧ customerSize * N ≤ maxAlloc ∧ (cs.length : Int) = N ∧
      (∀ (n : Nat) (c : Customer), cs[n]? = some c → c.ID = n + 1) ∧
      generateCustomersLoop N.toNat 0 w = some (cs, w1) := by
  unfold generateCustomers at h
  rcases hm : makeslice customerSize N with _ | k
  · rw [hm] at h
    exact Option.noConfusion h
  · obtain ⟨h0, hsize, rfl⟩ := makeslice_inv hm
    rw [hm] at h
    obtain ⟨cs2, w2, h2, hlen, hall⟩ := generateCustomersLoop_spec N.toNat 0 w
    simp only [h2, Option.some.injEq, Prod.mk.injEq] at h
    obtain ⟨rfl, rfl⟩ := h
    refine ⟨h0, hsize, by omega, ?_, h2⟩
    intro n c hn
    rw [hall n c hn]
    ring

/-- A count that `makeslice` refuses: `generateCustomers` panics. -/
theorem generateCustomers_panic {N : Int} (hN : N < 0 ∨ maxAlloc < customerSize * N)
    (w : World) : generateCustomers N w = none := by
  unfold generateCustomers makeslice
  rw [if_pos hN]

theorem generateCustomersLoop_names (k : Nat) :
    ∀ (i : Int) (w : World) (cs : List Customer) (w1 : World),
      generateCustomersLoop k i w = some (cs, w1) →
      ∀ c ∈ cs, c.Name.length = 10 ∧
        ∃ user : String, user.length = 5 ∧ c.Email = user ++ "@example.com" := by
  induction k with
  | zero =>
    intro i w cs w1 h
    simp only [generateCustomersLoop, Option.some.injEq, Prod.mk.injEq] at h
    rw [← h.1]
    simp
  | succ k ih =>
    intro i w cs w1 h
    obtain ⟨name, wa, h1, hl1⟩ := randomString_total (n := 10) (by decide) (by decide) w
    obtain ⟨user, wb, h2, hl2⟩ := randomString_total (n := 5) (by decide) (by decide) wa
    rw [generateCustomersLoop] at h
    simp only [h1, h2] at h
    rcases h3 : generateCustomersLoop k (i + 1) wb with _ | ⟨rest, wc⟩
    · simp [h3] at h
    · simp only [h3, Option.some.injEq, Prod.mk.injEq] at h
      rw [← h.1]
      intro c hc
      rcases List.mem_cons.mp hc with hc | hc
      · subst hc
        exact ⟨by exact_mod_cast hl1, user, by exact_mod_cast hl2, rfl⟩
      · exact ih (i + 1) wb rest wc h3 c hc
/-! ## Lemmas relating runs: the clock, and the two status modes -/

/-- The inner loop run with `randomStatus = true` and with `randomStatus = false`
from the same state: same draws, same orders up to the status. -/
theorem ordersOfCustomer_sameRun (c : Customer) (st : List String) (k : Nat) :
    ∀ (j oid : Int) (w : World), 0 ≤ j →
      sameRun (ordersOfCustomer c st true k j oid w) (ordersOfCustomer c st false k j oid w) := by
  induction k with
  | zero =>
    intro j oid w _
    simp [ordersOfCustomer, sameRun]
  | succ k ih =>
    intro j oid w hj
    rw [ordersOfCustomer, ordersOfCustomer]
    rcases h1 : randIntn st.length w with _ | ⟨r, w1⟩
    · simp [sameRun]
    dsimp only
    have hlen := (randIntn_inv h1).1
    rcases h2 : index st r with _ | drawn
    · simp [sameRun]
    dsimp only
    obtain ⟨cyc, h3⟩ : ∃ x, index st (Int.tmod j st.length) = some x := by
      rw [Int.tmod_eq_emod hj (by omega)]
      exact index_total st (Int.emod_nonneg _ (by omega)) (Int.emod_lt_of_pos _ hlen)
    rcases h4 : randIntn products.length w1 with _ | ⟨p, w2⟩
    · simp [sameRun, h3]
    dsimp only
    rcases h5 : index products p with _ | pn
    · simp [sameRun, h3]
    dsimp only
    rcases h6 : randIntn 9 w2 with _ | ⟨q, w3⟩
    · simp [sameRun, h3]
    dsimp only
    rcases h7 : randIntn 365 (timeNow w3).2 with _ | ⟨d, w5⟩
    · simp [sameRun, h3]
    dsimp only
    have hrec := ih (j + 1) (oid + 1) w5 (by omega)
    rcases h8 : ordersOfCustomer c st true k (j + 1) (oid + 1) w5 with _ | ⟨rest1, n1, wa⟩ <;>
      rcases h9 : ordersOfCustomer c st false k (j + 1) (oid + 1) w5 with _ | ⟨rest2, n2, wb⟩ <;>
      rw [h8, h9] at hrec <;> simp only [sameRun] at hrec
    · simp [sameRun, h3]
    · obtain ⟨hfor, hn, hw⟩ := hrec
      simp only [sameRun, h3, Bool.not_true, Bool.false_eq_true, if_false, Bool.not_false,
        if_true]
      exact ⟨List.Forall₂.cons ⟨rfl, rfl, rfl, rfl, rfl⟩ hfor, hn, hw⟩

theorem generateOrdersLoop_sameRun (mn mx : Int) (st : List String) (cs : List Customer) :
    ∀ (oid : Int) (w : World),
      sameRun (generateOrdersLoop mn mx st true cs oid w)
        (generateOrdersLoop mn mx st false cs oid w) := by
  induction cs with
  | nil =>
    intro oid w
    simp [generateOrdersLoop, sameRun]
  | cons c cs ih =>
    intro oid w
    rw [generateOrdersLoop, generateOrdersLoop]
    rcases h1 : randIntn (wrapInt (mx - mn + 1)) w with _ | ⟨r, w1⟩
    · simp [sameRun]
    dsimp only
    have hin := ordersOfCustomer_sameRun c st (wrapInt (r + mn)).toNat 0 oid w1 (le_refl 0)
    rcases h2 : ordersOfCustomer c st true (wrapInt (r + mn)).toNat 0 oid w1
        with _ | ⟨b1, n1, wa⟩ <;>
      rcases h3 : ordersOfCustomer c st false (wrapInt (r + mn)).toNat 0 oid w1
        with _ | ⟨b2, n2, wb⟩ <;>
      rw [h2, h3] at hin <;> simp only [sameRun] at hin
    · simp [sameRun]
    · obtain ⟨hfor, hn, hw⟩ := hin
      subst hn hw
      dsimp only
      have hout := ih n1 wa
      rcases h4 : generateOrdersLoop mn mx st true cs n1 wa with _ | ⟨m1, l1, wc⟩ <;>
        rcases h5 : generateOrdersLoop mn mx st false cs n1 wa with _ | ⟨m2, l2, wd⟩ <;>
        rw [h4, h5] at hout <;> simp only [sameRun] at hout
      · simp [sameRun]
      · obtain ⟨hfor2, hn2, hw2⟩ := hout
        simp only [sameRun]
        exact ⟨List.rel_append hfor hfor2, hn2, hw2⟩

/-- The two modes of `generateOrders` from the same state: both panic, or both
return, with orders that agree up to the status and the same final state. -/
theorem generateOrders_sameRun (cs : List Customer) (mn mx : Int) (st : List String)
    (w : World) :
    (generateOrders cs mn mx st true w = none ∧ generateOrders cs mn mx st false w = none) ∨
      ∃ os1 os2 w1, generateOrders cs mn mx st true w = some (os1, w1) ∧
        generateOrders cs mn mx st false w = some (os2, w1) ∧
        List.Forall₂ sameButStatus os1 os2 := by
  have h := generateOrdersLoop_sameRun mn mx st cs 1
    (randSeed (timeNow w).1.unixNano (timeNow w).2)
  unfold generateOrders
  simp only
  rcases h1 : generateOrdersLoop mn mx st true cs 1
      (randSeed (timeNow w).1.unixNano (timeNow w).2) with _ | ⟨m1, l1, wc⟩ <;>
    rcases h2 : generateOrdersLoop mn mx st false cs 1
      (randSeed (timeNow w).1.unixNano (timeNow w).2) with _ | ⟨m2, l2, wd⟩ <;>
    rw [h1, h2] at h <;> simp only [sameRun] at h
  · exact Or.inl ⟨rfl, rfl⟩
  · obtain ⟨hfor, -, hw⟩ := h
    subst hw
    exact Or.inr ⟨m1, m2, wc, rfl, rfl, hfor⟩

theorem forall₂_getElem? {α β : Type} {R : α → β → Prop} {l1 : List α} {l2 : List β}
    (h : List.Forall₂ R l1 l2) :
    ∀ (i : Nat) (a : α) (b : β), l1[i]? = some a → l2[i]? = some b → R a b := by
  induction h with
  | nil => intro i a b ha; simp at ha
  | cons hab _ ih =>
    intro i a b ha hb
    cases i with
    | zero =>
      simp only [List.getElem?_cons_zero, Option.some.injEq] at ha hb
      subst ha hb
      exact hab
    | succ n =>
      simp only [List.getElem?_cons_succ] at ha hb
      exact ih n a b ha hb

/-! ### `AddDate` and the time zone -/

theorem blocks_length_bounds {mn mx : Int} {st : List String} {rs : Bool}
    (h0 : 0 ≤ mn) (h1 : mn ≤ mx) (h2 : mx ≤ maxInt)
    {cs : List Customer} {blocks : List (List Order)}
    (h : List.Forall₂ (blockInv mn mx st rs) cs blocks) :
    (cs.length : Int) * mn ≤ blocks.flatten.length ∧
      (blocks.flatten.length : Int) ≤ cs.length * mx := by
  induction h with
  | nil => simp
  | cons hb _ ih =>
    obtain ⟨hlo, hhi⟩ := blockInv_bounds h0 h1 h2 hb
    simp only [List.length_cons, List.flatten_cons, List.length_append]
    push_cast
    constructor
    · nlinarith [ih.1]
    · nlinarith [ih.2]

theorem blocks_mem {mn mx : Int} {st : List String} {rs : Bool}
    {cs : List Customer} {blocks : List (List Order)}
    (h : List.Forall₂ (blockInv mn mx st rs) cs blocks) {o : Order}
    (ho : o ∈ blocks.flatten) :
    ∃ c ∈ cs, ∃ (id : Int) (n : Nat), orderInv c st rs id n o := by
  induction h with
  | nil => simp at ho
  | @cons c b cs1 bs1 hb _ ih =>
    simp only [List.flatten_cons, List.mem_append] at ho
    rcases ho with ho | ho
    · obtain ⟨n, hn⟩ := List.mem_iff_getElem?.mp ho
      obtain ⟨id, hinv⟩ := hb.2 n o hn
      exact ⟨c, List.mem_cons_self _ _, id, n, hinv⟩
    · obtain ⟨c1, hc1, hrest⟩ := ih ho
      exact ⟨c1, List.mem_cons_of_mem _ hc1, hrest⟩

theorem generateOrders_mem {cs : List Customer} {mn mx : Int} {st : List String} {rs : Bool}
    {w : World} {os : List Order} {w1 : World}
    (h : generateOrders cs mn mx st rs w = some (os, w1)) {o : Order} (ho : o ∈ os) :
    ∃ c ∈ cs, ∃ (id : Int) (n : Nat), orderInv c st rs id n o := by
  obtain ⟨w0, lid, hloop⟩ := generateOrders_inv h
  obtain ⟨blocks, hflat, hfor⟩ := generateOrdersLoop_blocks cs hloop
  subst hflat
  exact blocks_mem hfor ho

theorem index_natCast {α : Type} (xs : List α) (n : Nat) : index xs (n : Int) = xs[n]? := by
  unfold index
  rw [if_neg (by omega)]
  simp

/-- With `randomStatus = false` the `k`-th order of a block carries the
vocabulary entry `k mod len`. -/
theorem blockInv_status {mn mx : Int} {st : List String} {c : Customer} {b : List Order}
    (h : blockInv mn mx st false c b) :
    ∀ (k : Nat) (o : Order), b[k]? = some o → st[k % st.length]? = some o.Status := by
  intro k o hk
  obtain ⟨id, hinv⟩ := h.2 k o hk
  have hs := hinv.2.2.2.2.2.2.1 rfl
  rw [Int.tmod_eq_emod (Int.natCast_nonneg _) (Int.natCast_nonneg _)] at hs
  have hcast : ((k : Int) % (st.length : Int)) = ((k % st.length : Nat) : Int) := by
    push_cast
    rfl
  rw [hcast, index_natCast] at hs
  exact hs

theorem blockInv_customerID {mn mx : Int} {st : List String} {rs : Bool} {c : Customer}
    {b : List Order} (h : blockInv mn mx st rs c b) : ∀ o ∈ b, o.CustomerID = c.ID := by
  intro o ho
  obtain ⟨n, hn⟩ := List.mem_iff_getElem?.mp ho
  obtain ⟨id, hinv⟩ := h.2 n o hn
  exact hinv.2.1

theorem generateOrders_nil (mn mx : Int) (st : List String) (rs : Bool) (w : World) :
    generateOrders [] mn mx st rs w
      = some ([], randSeed (timeNow w).1.unixNano (timeNow w).2) := by
  simp [generateOrders, generateOrdersLoop]

theorem generateOrders_panic_of_nonpos {mn mx : Int} (c : Customer) (cs : List Customer)
    (st : List String) (rs : Bool) (w : World) (h : wrapInt (mx - mn + 1) ≤ 0) :
    generateOrders (c :: cs) mn mx st rs w = none := by
  simp [generateOrders, generateOrdersLoop, randIntn, h]
/-! ## Lemmas on the CSV reader and writer -/

theorem hasCRLF_append_right {a b : List Char} (h : hasCRLF (a ++ b) = false) :
    hasCRLF b = false := by
  induction a with
  | nil => simpa using h
  | cons c cs ih =>
    simp only [List.cons_append, hasCRLF, Bool.or_eq_false_iff] at h
    exact ih h.2

theorem hasCRLF_getLast {a r : List Char} (h : hasCRLF (a ++ '\n' :: r) = false) :
    a.getLast? ≠ some '\r' := by
  induction a with
  | nil => simp
  | cons c cs ih =>
    cases cs with
    | nil =>
      simp only [List.cons_append, List.nil_append, hasCRLF, List.head?_cons,
        Bool.or_eq_false_iff, Bool.and_eq_false_iff] at h
      simp only [List.getLast?_singleton, ne_eq, Option.some.injEq]
      intro hc
      subst hc
      simp at h
    | cons d ds =>
      simp only [List.cons_append, hasCRLF, Bool.or_eq_false_iff] at h
      rw [List.getLast?_cons_cons]
      apply ih
      simp only [List.cons_append, hasCRLF, Bool.or_eq_false_iff]
      exact h.2

theorem readSlice_cons {c : Char} (v : List Char) (hc : c ≠ '\n') :
    readSlice (c :: v) = (c :: (readSlice v).1, (readSlice v).2) := by
  simp only [readSlice, if_neg hc]

theorem readSlice_length (v : List Char) :
    (readSlice v).1.length + (readSlice v).2.length = v.length := by
  induction v with
  | nil => rfl
  | cons c cs ih =>
    simp only [readSlice]
    split
    · simp only [List.length_cons, List.length_nil]
      omega
    · simp only [List.length_cons]
      omega

theorem readSlice_append {a : List Char} (b : List Char) (ha : '\n' ∉ a) :
    readSlice (a ++ b) = (a ++ (readSlice b).1, (readSlice b).2) := by
  induction a with
  | nil => simp
  | cons c cs ih =>
    have hc : c ≠ '\n' := fun h => ha (by simp [h])
    have hcs : '\n' ∉ cs := fun h => ha (List.mem_cons_of_mem _ h)
    rw [List.cons_append, readSlice_cons _ hc, ih hcs, List.cons_append]

theorem readSlice_newline (b : List Char) : readSlice ('\n' :: b) = (['\n'], b) := by
  simp [readSlice]

theorem readSlice_decomp {v : List Char} (h : '\n' ∈ v) :
    ∃ a, '\n' ∉ a ∧ (readSlice v).1 = a ++ ['\n'] ∧ v = a ++ '\n' :: (readSlice v).2 := by
  induction v with
  | nil => simp at h
  | cons c cs ih =>
    by_cases hc : c = '\n'
    · subst hc
      exact ⟨[], by simp, by simp [readSlice], by simp [readSlice]⟩
    · have hcs : '\n' ∈ cs := by
        rcases List.mem_cons.mp h with h1 | h1
        · exact absurd h1.symm hc
        · exact h1
      obtain ⟨a, ha, h1, h2⟩ := ih hcs
      refine ⟨c :: a, ?_, ?_, ?_⟩
      · simp only [List.mem_cons, not_or]
        exact ⟨fun e => hc e.symm, ha⟩
      · simp [readSlice, hc, h1]
      · simp only [readSlice, if_neg hc, List.cons_append, List.cons.injEq, true_and]
        exact h2

theorem lengthNL_append_newline (a : List Char) : lengthNL (a ++ ['\n']) = 1 := by
  simp [lengthNL]

theorem readLine_eq {v : List Char} (h : '\n' ∈ v) (hcr : hasCRLF v = false) :
    readLine v = ((readSlice v).1, false, (readSlice v).2) := by
  obtain ⟨a, ha, h1, h2⟩ := readSlice_decomp h
  have hlast : a.getLast? ≠ some '\r' := by
    rw [h2] at hcr
    exact hasCRLF_getLast hcr
  unfold readLine
  simp only [h1, lengthNL_append_newline]
  have e1 : ¬ (0 < (a ++ ['\n']).length ∧ 1 = 0 ∧ (a ++ ['\n']).getLast? = some '\r') := by
    simp
  rw [if_neg e1]
  have e2 : ¬ (2 ≤ (a ++ ['\n']).length ∧
      (a ++ ['\n'])[(a ++ ['\n']).length - 2]? = some '\r' ∧
      (a ++ ['\n'])[(a ++ ['\n']).length - 1]? = some '\n') := by
    rintro ⟨hlen, hr, -⟩
    simp only [List.length_append, List.length_singleton] at hlen hr
    have hpos : 0 < a.length := by omega
    rw [List.getElem?_append_left (by omega)] at hr
    apply hlast
    rw [List.getLast?_eq_getElem?]
    have : a.length + 1 - 2 = a.length - 1 := by omega
    rw [← this]
    exact hr
  rw [if_neg e2]
  simp

theorem splitAt_cons {c d : Char} (ds : List Char) (hd : d ≠ c) :
    splitAt c (d :: ds) = (d :: (splitAt c ds).1, (splitAt c ds).2) := by
  simp only [splitAt, if_neg hd]

theorem splitAt_append {c : Char} {a : List Char} (b : List Char) (ha : c ∉ a) :
    splitAt c (a ++ c :: b) = (a, some b) := by
  induction a with
  | nil => simp [splitAt]
  | cons d ds ih =>
    have hd : d ≠ c := fun h => ha (by simp [h])
    have hds : c ∉ ds := fun h => ha (List.mem_cons_of_mem _ h)
    rw [List.cons_append, splitAt_cons _ hd, ih hds]

theorem splitAt_none {c : Char} {a : List Char} (ha : c ∉ a) : splitAt c a = (a, none) := by
  induction a with
  | nil => rfl
  | cons d ds ih =>
    have hd : d ≠ c := fun h => ha (by simp [h])
    have hds : c ∉ ds := fun h => ha (List.mem_cons_of_mem _ h)
    rw [splitAt_cons _ hd, ih hds]

theorem readSlice_fst_ne_nil {v : List Char} (hv : v ≠ []) : (readSlice v).1 ≠ [] := by
  cases v with
  | nil => exact absurd rfl hv
  | cons c cs =>
    simp only [readSlice]
    split <;> simp

/-- Inside a quoted field, a character that is not a quote and is followed by
more of the line can be moved to the buffer without a step of the loop. -/
theorem parseFields_quoted_shift (fuel : Nat) (buf : List Char) {c : Char}
    {line : List Char} (rest : List Char) (fields : List String)
    (hc : c ≠ '"') (hline : line ≠ []) :
    parseFields fuel (some buf) (c :: line) rest fields
      = parseFields fuel (some (buf ++ [c])) line rest fields := by
  cases fuel with
  | zero => simp [parseFields]
  | succ fuel =>
    have hpos : 0 < line.length := List.length_pos.mpr hline
    rcases hs : splitAt '"' line with ⟨seg, _ | after⟩
    · simp [parseFields, splitAt, hc, hs, hpos]
    · simp [parseFields, splitAt, hc, hs]

theorem parseFields_close_comma (fuel : Nat) (buf tl : List Char) (fields : List String) :
    parseFields (fuel + 1) (some buf) (readSlice ('"' :: ',' :: tl)).1
        (readSlice ('"' :: ',' :: tl)).2 fields
      = parseFields fuel none (readSlice tl).1 (readSlice tl).2
          (fields ++ [String.mk buf]) := by
  rw [readSlice_cons _ (by decide), readSlice_cons _ (by decide)]
  simp [parseFields, splitAt]

theorem parseFields_close_newline (fuel : Nat) (buf t : List Char) (fields : List String) :
    parseFields (fuel + 1) (some buf) (readSlice ('"' :: '\n' :: t)).1
        (readSlice ('"' :: '\n' :: t)).2 fields
      = .ok (fields ++ [String.mk buf], t) := by
  rw [readSlice_cons _ (by decide), readSlice_newline]
  simp [parseFields, splitAt, lengthNL]

/-- The inner loop of a quoted field consumes the escaped body `escapeQuotes g`
and arrives at the closing quote with `g` appended to the buffer. -/
theorem parseFields_quoted_body (g : List Char) :
    ∀ (buf : List Char) (fuel : Nat) (tail : List Char) (fields : List String),
      '\n' ∈ tail → hasCRLF (escapeQuotes g ++ '"' :: tail) = false →
      (escapeQuotes g ++ '"' :: tail).length < fuel →
      ∃ fuel1, ('"' :: tail).length < fuel1 ∧
        parseFields fuel (some buf) (readSlice (escapeQuotes g ++ '"' :: tail)).1
            (readSlice (escapeQuotes g ++ '"' :: tail)).2 fields
          = parseFields fuel1 (some (buf ++ g)) (readSlice ('"' :: tail)).1
              (readSlice ('"' :: tail)).2 fields := by
  induction g with
  | nil =>
    intro buf fuel tail fields _ _ hfuel
    exact ⟨fuel, by simpa [escapeQuotes] using hfuel, by simp [escapeQuotes]⟩
  | cons c g ih =>
    intro buf fuel tail fields hnl hcr hfuel
    by_cases hq : c = '"'
    · subst hq
      simp only [escapeQuotes, if_true, List.cons_append, List.length_cons] at hcr hfuel ⊢
      obtain ⟨fuel0, rfl⟩ : ∃ k, fuel = k + 1 := ⟨fuel - 1, by omega⟩
      have hcr1 : hasCRLF (escapeQuotes g ++ '"' :: tail) = false :=
        hasCRLF_append_right (a := ['"', '"']) hcr
      obtain ⟨fuel1, h1, h2⟩ := ih (buf ++ ['"']) fuel0 tail fields hnl hcr1 (by omega)
      refine ⟨fuel1, h1, ?_⟩
      rw [readSlice_cons _ (by decide), readSlice_cons _ (by decide)]
      simp only [List.append_assoc, List.singleton_append] at h2
      simp [parseFields, splitAt, h2]
    · simp only [escapeQuotes, if_neg hq, List.cons_append, List.length_cons] at hcr hfuel ⊢
      have hcr1 : hasCRLF (escapeQuotes g ++ '"' :: tail) = false :=
        hasCRLF_append_right (a := [c]) hcr
      by_cases hn : c = '\n'
      · subst hn
        obtain ⟨fuel0, rfl⟩ : ∃ k, fuel = k + 1 := ⟨fuel - 1, by omega⟩
        obtain ⟨fuel1, h1, h2⟩ := ih (buf ++ ['\n']) fuel0 tail fields hnl hcr1 (by omega)
        refine ⟨fuel1, h1, ?_⟩
        have hmem : '\n' ∈ escapeQuotes g ++ '"' :: tail := by
          simp only [List.mem_append, List.mem_cons]
          exact Or.inr (Or.inr hnl)
        rw [readSlice_newline]
        simp only [List.append_assoc, List.singleton_append] at h2
        simp [parseFields, splitAt, readLine_eq hmem hcr1, h2]
      · obtain ⟨fuel1, h1, h2⟩ := ih (buf ++ [c]) fuel tail fields hnl hcr1 (by omega)
        refine ⟨fuel1, h1, ?_⟩
        rw [readSlice_cons _ hn, parseFields_quoted_shift fuel buf _ fields hq
          (readSlice_fst_ne_nil (by simp))]
        simp only [List.append_assoc, List.singleton_append] at h2
        exact h2

/-- A field that `fieldNeedsQuotes` leaves alone has no newline, carriage
return, quote or comma. -/
theorem not_special_of_plain {f : List Char} (h : fieldNeedsQuotes f = false) :
    ∀ c ∈ f, isSpecial c = false := by
  cases f with
  | nil => simp
  | cons d ds =>
    unfold fieldNeedsQuotes at h
    simp only at h
    split at h
    · simp at h
    · split at h
      · simp at h
      · rename_i _ hany
        intro c hc
        by_contra hsp
        exact hany (List.any_eq_true.mpr ⟨c, hc, by simpa using hsp⟩)

theorem plain_not_mem {f : List Char} (h : fieldNeedsQuotes f = false) :
    '\n' ∉ f ∧ ',' ∉ f ∧ '"' ∉ f ∧ '\r' ∉ f := by
  have hs := not_special_of_plain h
  refine ⟨?_, ?_, ?_, ?_⟩ <;> intro hmem <;> have := hs _ hmem <;> simp [isSpecial] at this

theorem head_plain_append {f : List Char} (h : fieldNeedsQuotes f = false) {c : Char}
    (x : List Char) (hc : c ≠ '"') : (f ++ c :: x).head? ≠ some '"' := by
  cases f with
  | nil => simpa using hc
  | cons d ds =>
    have := (plain_not_mem h).2.2.1
    simp only [List.cons_append, List.head?_cons, ne_eq, Option.some.injEq]
    intro hd
    exact this (by simp [hd])

theorem parseFields_plain_comma (fuel : Nat) {f : List Char} (tl : List Char)
    (fields : List String) (h : fieldNeedsQuotes f = false) :
    parseFields (fuel + 1) none (readSlice (f ++ ',' :: tl)).1
        (readSlice (f ++ ',' :: tl)).2 fields
      = parseFields fuel none (readSlice tl).1 (readSlice tl).2
          (fields ++ [String.mk f]) := by
  obtain ⟨hnl, hcomma, hquote, -⟩ := plain_not_mem h
  rw [readSlice_append _ hnl, readSlice_cons _ (by decide)]
  simp only [parseFields]
  rw [if_pos (head_plain_append h _ (by decide)), splitAt_append _ hcomma]
  simp only [if_neg hquote]

theorem parseFields_plain_newline (fuel : Nat) {f : List Char} (t : List Char)
    (fields : List String) (h : fieldNeedsQuotes f = false) :
    parseFields (fuel + 1) none (readSlice (f ++ '\n' :: t)).1
        (readSlice (f ++ '\n' :: t)).2 fields
      = .ok (fields ++ [String.mk f], t) := by
  obtain ⟨hnl, hcomma, hquote, -⟩ := plain_not_mem h
  rw [readSlice_append _ hnl, readSlice_newline]
  have hc : ',' ∉ f ++ ['\n'] := by
    simp only [List.mem_append, List.mem_singleton, not_or]
    exact ⟨hcomma, by decide⟩
  simp only [parseFields]
  rw [if_pos (head_plain_append h _ (by decide)), splitAt_none hc]
  simp only [lengthNL_append_newline, List.length_append, List.length_singleton,
    Nat.add_sub_cancel, List.take_left, if_neg hquote]

theorem encodeFields_pos (fs : List String) :
    ∀ n, 0 < n → encodeFields n fs = encodeFields 1 fs := by
  cases fs with
  | nil => intro n _; rfl
  | cons f fs =>
    intro n hn
    simp only [encodeFields, if_pos hn, Nat.lt_add_one, if_true]
    rw [encodeFields_pos fs (n + 1) (by omega), encodeFields_pos fs 2 (by omega)]

theorem encodeFields_one_cons (f : String) (fs : List String) :
    encodeFields 1 (f :: fs) = ',' :: (encodeField f ++ encodeFields 1 fs) := by
  simp only [encodeFields, Nat.lt_add_one, if_true, List.singleton_append, List.cons_append,
    List.nil_append]
  rw [encodeFields_pos fs 2 (by omega)]

theorem encodeFields_zero_cons (f : String) (fs : List String) :
    encodeFields 0 (f :: fs) = encodeField f ++ encodeFields 1 fs := by
  simp [encodeFields]

theorem newline_mem_tail (x t : List Char) : '\n' ∈ x ++ '\n' :: t := by
  simp

theorem encodeField_quoted {f : String} (h : fieldNeedsQuotes f.data = true) :
    encodeField f = '"' :: (escapeQuotes f.data ++ ['"']) := by
  simp only [encodeField, if_pos h]

theorem encodeField_plain {f : String} (h : fieldNeedsQuotes f.data = false) :
    encodeField f = f.data := by
  simp only [encodeField, h, Bool.false_eq_true, if_false]

/-- Reading back the last field of a record. -/
theorem parseFields_last (f : String) (fields : List String) (fuel : Nat) (t : List Char)
    (hcr : hasCRLF (encodeField f ++ '\n' :: t) = false)
    (hfuel : (encodeField f ++ '\n' :: t).length < fuel) :
    parseFields fuel none (readSlice (encodeField f ++ '\n' :: t)).1
        (readSlice (encodeField f ++ '\n' :: t)).2 fields
      = .ok (fields ++ [f], t) := by
  obtain ⟨fuel0, rfl⟩ : ∃ k, fuel = k + 1 := ⟨fuel - 1, by omega⟩
  by_cases hq : fieldNeedsQuotes f.data = true
  · rw [encodeField_quoted hq] at hcr hfuel ⊢
    simp only [List.cons_append, List.append_assoc, List.singleton_append, List.nil_append,
      List.length_cons] at hcr hfuel ⊢
    have hcr1 : hasCRLF (escapeQuotes f.data ++ '"' :: '\n' :: t) = false :=
      hasCRLF_append_right (a := ['"']) hcr
    obtain ⟨fuel1, h1, h2⟩ := parseFields_quoted_body f.data [] fuel0 ('\n' :: t) fields
      (by simp) hcr1 (by omega)
    obtain ⟨fuel2, rfl⟩ : ∃ k, fuel1 = k + 1 := ⟨fuel1 - 1, by simp at h1; omega⟩
    rw [readSlice_cons _ (by decide)]
    simp only [parseFields, List.head?_cons, ne_eq, not_true_eq_false, if_false,
      List.tail_cons]
    rw [h2, parseFields_close_newline]
    rfl
  · have hq1 : fieldNeedsQuotes f.data = false := by simpa using hq
    rw [encodeField_plain hq1]
    exact parseFields_plain_newline fuel0 t fields hq1

/-- Reading back a field that is followed by further fields: the parser
arrives at the start of the next field. -/
theorem parseFields_next (f : String) (fields : List String) (fuel : Nat) (tl : List Char)
    (hnl : '\n' ∈ tl)
    (hcr : hasCRLF (encodeField f ++ ',' :: tl) = false)
    (hfuel : (encodeField f ++ ',' :: tl).length < fuel) :
    ∃ fuel1, tl.length < fuel1 ∧
      parseFields fuel none (readSlice (encodeField f ++ ',' :: tl)).1
          (readSlice (encodeField f ++ ',' :: tl)).2 fields
        = parseFields fuel1 none (readSlice tl).1 (readSlice tl).2 (fields ++ [f]) := by
  obtain ⟨fuel0, rfl⟩ : ∃ k, fuel = k + 1 := ⟨fuel - 1, by omega⟩
  by_cases hq : fieldNeedsQuotes f.data = true
  · rw [encodeField_quoted hq] at hcr hfuel ⊢
    simp only [List.cons_append, List.append_assoc, List.singleton_append, List.nil_append,
      List.length_cons] at hcr hfuel ⊢
    have hcr1 : hasCRLF (escapeQuotes f.data ++ '"' :: ',' :: tl) = false :=
      hasCRLF_append_right (a := ['"']) hcr
    obtain ⟨fuel1, h1, h2⟩ := parseFields_quoted_body f.data [] fuel0 (',' :: tl) fields
      (List.mem_cons_of_mem _ hnl) hcr1 (by omega)
    obtain ⟨fuel2, rfl⟩ : ∃ k, fuel1 = k + 1 := ⟨fuel1 - 1, by simp at h1; omega⟩
    refine ⟨fuel2, by simp at h1; omega, ?_⟩
    rw [readSlice_cons _ (by decide)]
    simp only [parseFields, List.head?_cons, ne_eq, not_true_eq_false, if_false,
      List.tail_cons]
    rw [h2, parseFields_close_comma]
    rfl
  · have hq1 : fieldNeedsQuotes f.data = false := by simpa using hq
    rw [encodeField_plain hq1] at hfuel ⊢
    refine ⟨fuel0, by simp at hfuel; omega, ?_⟩
    exact parseFields_plain_comma fuel0 tl fields hq1

/-- Reading back one encoded record: from the start of a field, the parser
returns the remaining fields of the record and stops after its newline. -/
theorem parseFields_record (fs : List String) :
    ∀ (f : String) (fields : List String) (fuel : Nat) (t : List Char),
      hasCRLF (encodeField f ++ (encodeFields 1 fs ++ '\n' :: t)) = false →
      (encodeField f ++ (encodeFields 1 fs ++ '\n' :: t)).length < fuel →
      parseFields fuel none (readSlice (encodeField f ++ (encodeFields 1 fs ++ '\n' :: t))).1
          (readSlice (encodeField f ++ (encodeFields 1 fs ++ '\n' :: t))).2 fields
        = .ok (fields ++ f :: fs, t) := by
  induction fs with
  | nil =>
    intro f fields fuel t hcr hfuel
    simp only [encodeFields, List.nil_append] at hcr hfuel ⊢
    exact parseFields_last f fields fuel t hcr hfuel
  | cons g gs ih =>
    intro f fields fuel t hcr hfuel
    rw [encodeFields_one_cons] at hcr hfuel ⊢
    simp only [List.append_assoc, List.cons_append] at hcr hfuel ⊢
    obtain ⟨fuel1, h1, h2⟩ := parseFields_next f fields fuel
      (encodeField g ++ (encodeFields 1 gs ++ '\n' :: t)) (by simp) hcr hfuel
    rw [h2, ih g (fields ++ [f]) fuel1 t ?_ h1]
    · simp
    · have := hasCRLF_append_right (a := encodeField f ++ [',']) (by simpa using hcr)
      exact this

/-! ### The written text contains no `\r\n` -/

theorem hasCRLF_append {a b : List Char} (ha : hasCRLF a = false) (hb : hasCRLF b = false)
    (hab : a.getLast? ≠ some '\r' ∨ b.head? ≠ some '\n') : hasCRLF (a ++ b) = false := by
  induction a with
  | nil => simpa using hb
  | cons c cs ih =>
    simp only [hasCRLF, Bool.or_eq_false_iff] at ha
    cases cs with
    | nil =>
      simp only [List.cons_append, List.nil_append, hasCRLF, Bool.or_eq_false_iff]
      refine ⟨?_, hb⟩
      rcases hab with h | h
      · have hc : c ≠ '\r' := by simpa using h
        simp [hc]
      · cases b with
        | nil => simp
        | cons d ds =>
          have hd : d ≠ '\n' := by simpa using h
          simp [hd]
    | cons d ds =>
      have hab1 : (d :: ds).getLast? ≠ some '\r' ∨ b.head? ≠ some '\n' := by
        rcases hab with h | h
        · left
          rwa [List.getLast?_cons_cons] at h
        · right
          exact h
      have := ih ha.2 hab1
      simp only [List.cons_append, hasCRLF, Bool.or_eq_false_iff, List.head?_cons] at ha this ⊢
      exact ⟨ha.1, this⟩

theorem crSafe_nil : crSafe [] := by
  simp [crSafe, hasCRLF]

theorem crSafe_singleton {c : Char} (hc : c ≠ '\r') : crSafe [c] := by
  simp [crSafe, hasCRLF, hc]

theorem crSafe_append {a b : List Char} (ha : crSafe a) (hb : crSafe b) : crSafe (a ++ b) := by
  refine ⟨hasCRLF_append ha.1 hb.1 (Or.inl ha.2), ?_⟩
  cases b with
  | nil => simpa using ha.2
  | cons d ds =>
    rw [List.getLast?_append_of_ne_nil _ (by simp)]
    exact hb.2

theorem head_escapeQuotes (g : List Char) : (escapeQuotes g).head? = g.head? := by
  cases g with
  | nil => rfl
  | cons c cs =>
    by_cases hc : c = '"'
    · simp [escapeQuotes, hc]
    · simp [escapeQuotes, hc]

theorem hasCRLF_escapeQuotes {g : List Char} (h : hasCRLF g = false) :
    hasCRLF (escapeQuotes g) = false := by
  induction g with
  | nil => rfl
  | cons c cs ih =>
    simp only [hasCRLF, Bool.or_eq_false_iff] at h
    by_cases hc : c = '"'
    · subst hc
      simp only [escapeQuotes, if_true, hasCRLF, List.head?_cons, Bool.or_eq_false_iff]
      exact ⟨by simp, by simp, ih h.2⟩
    · simp only [escapeQuotes, if_neg hc, hasCRLF, Bool.or_eq_false_iff, head_escapeQuotes]
      exact ⟨h.1, ih h.2⟩

theorem crSafe_encodeField {f : String} (h : hasCRLF f.data = false) :
    crSafe (encodeField f) := by
  by_cases hq : fieldNeedsQuotes f.data = true
  · rw [encodeField_quoted hq]
    have h1 : crSafe (escapeQuotes f.data ++ ['"']) :=
      ⟨hasCRLF_append (hasCRLF_escapeQuotes h) (by decide) (Or.inr (by decide)),
        by simp⟩
    exact crSafe_append (a := ['"']) (crSafe_singleton (by decide)) h1
  · have hq1 : fieldNeedsQuotes f.data = false := by simpa using hq
    rw [encodeField_plain hq1]
    refine ⟨h, ?_⟩
    intro hl
    exact (plain_not_mem hq1).2.2.2 (List.mem_of_mem_getLast? hl)

theorem crSafe_encodeFields (fs : List String) :
    ∀ n, (∀ f ∈ fs, hasCRLF f.data = false) → crSafe (encodeFields n fs) := by
  induction fs with
  | nil => intro n _; exact crSafe_nil
  | cons f fs ih =>
    intro n h
    simp only [encodeFields]
    refine crSafe_append (crSafe_append ?_ (crSafe_encodeField (h f (List.mem_cons_self _ _))))
      (ih (n + 1) (fun g hg => h g (List.mem_cons_of_mem _ hg)))
    split
    · exact crSafe_singleton (by decide)
    · exact crSafe_nil

theorem crSafe_encodeAll (rows : List (List String))
    (h : ∀ r ∈ rows, ∀ f ∈ r, hasCRLF f.data = false) : crSafe (encodeAll rows) := by
  induction rows with
  | nil => exact crSafe_nil
  | cons r rows ih =>
    simp only [encodeAll, encodeRecord]
    exact crSafe_append
      (crSafe_append (crSafe_encodeFields r 0 (h r (List.mem_cons_self _ _)))
        (crSafe_singleton (by decide)))
      (ih (fun r1 hr1 => h r1 (List.mem_cons_of_mem _ hr1)))

/-! ### Reading back the written text -/

theorem head_encodeField_ne_newline {f : String} (hf : encodeField f ≠ []) (x : List Char) :
    (encodeField f ++ x).head? ≠ some '\n' := by
  by_cases hq : fieldNeedsQuotes f.data = true
  · rw [encodeField_quoted hq]
    simp
  · have hq1 : fieldNeedsQuotes f.data = false := by simpa using hq
    rw [encodeField_plain hq1] at hf ⊢
    cases hd : f.data with
    | nil => exact absurd hd hf
    | cons c cs =>
      have : '\n' ∉ f.data := (plain_not_mem hq1).1
      rw [hd] at this
      simp only [List.cons_append, List.head?_cons, ne_eq, Option.some.injEq]
      intro hc
      exact this (by simp [hc])

theorem encodeField_eq_nil {f : String} (h : encodeField f = []) : f = "" := by
  by_cases hq : fieldNeedsQuotes f.data = true
  · rw [encodeField_quoted hq] at h
    simp at h
  · have hq1 : fieldNeedsQuotes f.data = false := by simpa using hq
    rw [encodeField_plain hq1] at h
    cases f
    simp only at h
    subst h
    rfl

/-- An encoded record that is neither empty nor a single empty field does not
start with a newline. -/
theorem head_record_ne_newline (f : String) (fs : List String) (t : List Char)
    (h : f :: fs ≠ [""]) :
    (encodeField f ++ (encodeFields 1 fs ++ '\n' :: t)).head? ≠ some '\n' := by
  by_cases hf : encodeField f = []
  · have hf1 := encodeField_eq_nil hf
    cases fs with
    | nil => subst hf1; exact absurd rfl h
    | cons g gs =>
      rw [hf, encodeFields_one_cons]
      simp
  · exact head_encodeField_ne_newline hf _

theorem readRecord_encoded (f : String) (fs : List String) (t : List Char)
    (h : f :: fs ≠ [""])
    (hcr : hasCRLF (encodeRecord (f :: fs) ++ t) = false) :
    readRecord (encodeRecord (f :: fs) ++ t) = .ok (some (f :: fs, t)) := by
  have hv : encodeRecord (f :: fs) ++ t
      = encodeField f ++ (encodeFields 1 fs ++ '\n' :: t) := by
    simp [encodeRecord, encodeFields_zero_cons]
  rw [hv] at hcr ⊢
  generalize hvdef : encodeField f ++ (encodeFields 1 fs ++ '\n' :: t) = v at hcr
  have hnl : '\n' ∈ v := by rw [← hvdef]; simp
  have hhead : v.head? ≠ some '\n' := by rw [← hvdef]; exact head_record_ne_newline f fs t h
  obtain ⟨a, ha, h1, h2⟩ := readSlice_decomp hnl
  have hane : a ≠ [] := by
    intro ha0
    subst ha0
    rw [h2] at hhead
    simp at hhead
  have hskip : skipEmptyLines (v.length + 1) v = .ok ((readSlice v).1, false, (readSlice v).2) := by
    simp only [skipEmptyLines, readLine_eq hnl hcr]
    rw [if_neg]
    rw [h1, lengthNL_append_newline]
    simp only [List.length_append, List.length_singleton, true_and]
    have : 0 < a.length := List.length_pos.mpr hane
    omega
  have hparse := parseFields_record fs f [] ((readSlice v).1.length + (readSlice v).2.length + 1) t
    (by rw [hvdef]; exact hcr) (by rw [hvdef, readSlice_length]; omega)
  rw [hvdef] at hparse
  simp only [readRecord, hskip, Bool.false_eq_true, if_false, hparse, List.nil_append]

theorem readRecord_nil : readRecord [] = .ok none := by
  rfl

theorem length_le_encodeAll (rows : List (List String)) :
    rows.length ≤ (encodeAll rows).length := by
  induction rows with
  | nil => simp
  | cons r rows ih =>
    simp only [encodeAll, encodeRecord, List.length_cons, List.length_append,
      List.length_singleton, List.length_nil]
    omega

theorem readAllLoop_encoded (n : Nat) (hn : 0 < n) (rows : List (List String)) :
    ∀ (fuel fpr : Nat), (fpr = 0 ∨ fpr = n) →
      (∀ r ∈ rows, r.length = n) → (∀ r ∈ rows, r ≠ [""]) →
      hasCRLF (encodeAll rows) = false → rows.length < fuel →
      readAllLoop fuel fpr (encodeAll rows) = .ok rows := by
  induction rows with
  | nil =>
    intro fuel fpr _ _ _ _ hfuel
    obtain ⟨fuel0, rfl⟩ : ∃ k, fuel = k + 1 := ⟨fuel - 1, by omega⟩
    simp only [encodeAll, readAllLoop, readRecord_nil]
  | cons r rows ih =>
    intro fuel fpr hfpr hlen hne hcr hfuel
    obtain ⟨fuel0, rfl⟩ : ∃ k, fuel = k + 1 := ⟨fuel - 1, by omega⟩
    have hrlen : r.length = n := hlen r (List.mem_cons_self _ _)
    obtain ⟨f, fs, rfl⟩ : ∃ f fs, r = f :: fs := by
      cases r with
      | nil => simp at hrlen; omega
      | cons f fs => exact ⟨f, fs, rfl⟩
    simp only [encodeAll] at hcr ⊢
    have hrec := readRecord_encoded f fs (encodeAll rows) (hne _ (List.mem_cons_self _ _)) hcr
    have hcheck : ¬ (0 < fpr ∧ (f :: fs).length ≠ fpr) := by
      rintro ⟨h1, h2⟩
      rcases hfpr with h | h <;> omega
    have hnext : (if 0 < fpr then fpr else (f :: fs).length) = n := by
      rcases hfpr with h | h
      · rw [h]; simpa using hrlen
      · rw [h, if_pos hn]
    have hrest := ih fuel0 n (Or.inr rfl) (fun r1 hr1 => hlen r1 (List.mem_cons_of_mem _ hr1))
      (fun r1 hr1 => hne r1 (List.mem_cons_of_mem _ hr1)) (hasCRLF_append_right hcr)
      (by simp at hfuel; omega)
    simp only [readAllLoop, hrec, if_neg hcheck, hnext, hrest]

/-- The text of records that all have the same positive number of fields, none
being a single empty field and no field containing `\r\n`, is read back as the
records. -/
theorem csvReadAll_encodeAll (n : Nat) (hn : 0 < n) (rows : List (List String))
    (hlen : ∀ r ∈ rows, r.length = n) (hne : ∀ r ∈ rows, r ≠ [""])
    (hcr : ∀ r ∈ rows, ∀ f ∈ r, hasCRLF f.data = false) :
    csvReadAll (encodeAll rows) = .ok rows := by
  unfold csvReadAll
  exact readAllLoop_encoded n hn rows _ 0 (Or.inl rfl) hlen hne (crSafe_encodeAll rows hcr).1
    (by have := length_le_encodeAll rows; omega)

/-! ### `writeCSV` on a file system that does not fail -/

theorem writeRecords_none (data : List (List String)) :
    ∀ (handed : List Char),
      writeRecords none data handed = (none, handed ++ encodeAll data) := by
  induction data with
  | nil => intro handed; simp [writeRecords, encodeAll]
  | cons r rows ih =>
    intro handed
    simp only [writeRecords, bufferedWrite]
    rw [ih]
    simp [encodeAll]

theorem writeCSV_ok (filename : String) (data : List (List String)) (fs : FileSystem)
    (hc : fs.createErr filename = none) (hw : fs.writeErr filename = none) :
    writeCSV filename data fs = (none, fs.setFile filename (encodeAll data)) := by
  simp only [writeCSV, hc, hw, writeRecords_none, flushDeferred]
  simp
/-! ## The CSV reader on texts that may contain `\r\n` -/

theorem encodeFields_one_eq (fs : List String) :
    encodeFields 1 fs = fs.flatMap (fun f => ',' :: encodeField f) := by
  induction fs with
  | nil => rfl
  | cons f fs ih =>
    rw [encodeFields_one_cons, ih]
    simp

theorem mainRows_eq (flags : Flags) (w : World) {cs : List Customer} {w0 : World}
    {os : List Order} {w1 : World}
    (hgen : generateCustomers flags.customers w = some (cs, w0))
    (hord : generateOrders cs flags.minOrders flags.maxOrders
        (stringsSplit (if flags.statuses = "" then "Pending,Processing,Shipped,Delivered"
          else flags.statuses)) flags.randomStatus w0 = some (os, w1)) :
    mainRows flags w = some (cs, os, customerCSV cs, orderCSV os, w1) := by
  unfold mainRows
  simp only [hgen, hord]

theorem stringsSplit_ne_nil (s : String) : stringsSplit s ≠ [] := by
  unfold stringsSplit
  have h : ∀ cs : List Char, splitOnChar ',' cs ≠ [] := by
    intro cs
    induction cs with
    | nil => simp [splitOnChar]
    | cons c cs ih =>
      simp only [splitOnChar]
      split
      · simp
      · split <;> simp
  simpa using h s.data

theorem mainRows_inv {flags : Flags} {w : World} {customers : List Customer}
    {orders : List Order} {customerRows orderRows : List (List String)} {w1 : World}
    (h : mainRows flags w = some (customers, orders, customerRows, orderRows, w1)) :
    ∃ w0, generateCustomers flags.customers w = some (customers, w0) ∧
      generateOrders customers flags.minOrders flags.maxOrders
        (stringsSplit (if flags.statuses = "" then "Pending,Processing,Shipped,Delivered"
          else flags.statuses)) flags.randomStatus w0 = some (orders, w1) ∧
      customerRows = customerCSV customers ∧ orderRows = orderCSV orders := by
  unfold mainRows at h
  simp only at h
  rcases h1 : generateCustomers flags.customers w with _ | ⟨cs, w0⟩
  · simp [h1] at h
  rcases h2 : generateOrders cs flags.minOrders flags.maxOrders
      (stringsSplit (if flags.statuses = "" then "Pending,Processing,Shipped,Delivered"
        else flags.statuses)) flags.randomStatus w0 with _ | ⟨os, w2⟩
  · simp [h1, h2] at h
  simp only [h1, h2, Option.some.injEq, Prod.mk.injEq] at h
  obtain ⟨rfl, rfl, rfl, rfl, rfl⟩ := h
  exact ⟨w0, rfl, h2, rfl, rfl⟩

/-- The generation in `main` returns when the customer count is accepted by
`makeslice` and either is zero or the order range is in order and does not
overflow. -/
theorem mainRows_total (flags : Flags) (w : World) (hc : 0 ≤ flags.customers)
    (hsize : customerSize * flags.customers ≤ maxAlloc)
    (hrange : flags.customers = 0 ∨
      (flags.minOrders ≤ flags.maxOrders ∧ flags.maxOrders - flags.minOrders < maxInt)) :
    ∃ res, mainRows flags w = some res := by
  obtain ⟨cs, w0, hgen, hlen, -⟩ := generateCustomers_spec hc hsize w
  rcases hrange with h0 | ⟨hle, hno⟩
  · have hcs : cs = [] := by
      rw [h0] at hlen
      exact List.length_eq_zero.mp (by exact_mod_cast hlen)
    subst hcs
    exact ⟨_, mainRows_eq flags w hgen (generateOrders_nil _ _ _ _ _)⟩
  · obtain ⟨os, w1, hord⟩ := generateOrders_total cs flags.minOrders flags.maxOrders
      (stringsSplit (if flags.statuses = "" then "Pending,Processing,Shipped,Delivered"
        else flags.statuses)) flags.randomStatus w0 (stringsSplit_ne_nil _) hle hno
    exact ⟨_, mainRows_eq flags w hgen hord⟩

theorem main_eq {flags : Flags} {w : World} {customers : List Customer}
    {orders : List Order} {customerRows orderRows : List (List String)} {w1 : World}
    (h : mainRows flags w = some (customers, orders, customerRows, orderRows, w1))
    (fs : FileSystem) :
    main flags w fs = some (
      (match (writeCSV "customers.csv" customerRows fs).1 with
        | some e => ["Error writing customers.csv: " ++ e.msg]
        | none => []) ++
      (match (writeCSV "orders.csv" orderRows (writeCSV "customers.csv" customerRows fs).2).1 with
        | some e => ["Error writing orders.csv: " ++ e.msg]
        | none => []) ++
      ["顧客マスタデータと注文データがCSVファイルとして保存されました。"],
      (writeCSV "orders.csv" orderRows (writeCSV "customers.csv" customerRows fs).2).2) := by
  unfold main
  simp only [h]

theorem writeCSV_createErr (filename : String) (data : List (List String)) (fs : FileSystem)
    {e : GoError} (h : fs.createErr filename = some e) :
    writeCSV filename data fs = (some e, fs) := by
  simp only [writeCSV, h]

theorem writeCSV_preserves_oracles (filename : String) (data : List (List String))
    (fs : FileSystem) :
    (writeCSV filename data fs).2.createErr = fs.createErr ∧
      (writeCSV filename data fs).2.writeErr = fs.writeErr := by
  unfold writeCSV
  split <;> simp [FileSystem.setFile]

theorem byteLength_append (a b : List Char) :
    byteLength (a ++ b) = byteLength a + byteLength b := by
  simp [byteLength]

theorem writeRecords_small (werr : Option GoError) (data : List (List String)) :
    ∀ (handed : List Char), byteLength (handed ++ encodeAll data) ≤ bufSize →
      writeRecords werr data handed = (none, handed ++ encodeAll data) := by
  induction data with
  | nil => intro handed _; simp [writeRecords, encodeAll]
  | cons r rest ih =>
    intro handed hlen
    simp only [encodeAll, byteLength_append] at hlen
    have hfit : byteLength (handed ++ encodeRecord r) ≤ bufSize := by
      simp only [byteLength_append]
      omega
    have hstep : bufferedWrite werr handed (encodeRecord r) = .ok (handed ++ encodeRecord r) := by
      unfold bufferedWrite
      cases werr with
      | none => rfl
      | some e => simp only [if_pos hfit]
    simp only [writeRecords, hstep]
    rw [ih (handed ++ encodeRecord r) (by simp only [byteLength_append]; omega)]
    simp [encodeAll]

/-- Output that fits the buffer reaches the file only with the deferred
`Flush`; when that write fails, `writeCSV` still returns `nil` and the file
stays empty. -/
theorem writeCSV_unflushed (filename : String) (data : List (List String)) (fs : FileSystem)
    {e : GoError} (hc : fs.createErr filename = none) (hw : fs.writeErr filename = some e)
    (hsmall : byteLength (encodeAll data) ≤ bufSize) :
    writeCSV filename data fs = (none, fs.setFile filename []) := by
  have h := writeRecords_small (some e) data [] (by simpa using hsmall)
  simp only [writeCSV, hc, hw, h, flushDeferred]
/-! ## The generators: stated properties -/

/-- C1 (the panic of `make` at a large count): for `N = 2^43`, and for the
largest `int`, the slice `make([]Customer, N)` would take more than `maxAlloc`
bytes and `generateCustomers N` panics in every state of the random source,
although `N ≥ 0`. -/
theorem generateCustomers_panics_on_large_count :
    (0 : Int) ≤ 2 ^ 43 ∧ maxAlloc < customerSize * 2 ^ 43 ∧
      (∀ w : World, generateCustomers (2 ^ 43) w = none) ∧
      (0 : Int) ≤ maxInt ∧ (∀ w : World, generateCustomers maxInt w = none) ∧
      (∀ (N : Int) (w : World), maxAlloc < customerSize * N → generateCustomers N w = none) :=
  ⟨by decide, by decide, fun w => generateCustomers_panic (Or.inr (by decide)) w,
    by decide, fun w => generateCustomers_panic (Or.inr (by decide)) w,
    fun _ w h => generateCustomers_panic (Or.inr h) w⟩

/-- C1 (amended): for every count `N ≥ 0` whose slice of `N` customers (40
bytes each) does not exceed `maxAlloc = 2^48` bytes, that is
`N ≤ 7036874417766`, and every state of the random source,
`generateCustomers N` returns exactly `N` customers, the customer at 0-based
position `i` has `ID = i + 1`, and `N = 0` gives the empty sequence. -/
theorem generateCustomers_count_and_ids (N : Int) (w : World) (hN : 0 ≤ N)
    (hsize : customerSize * N ≤ maxAlloc) :
    ∃ cs w1, generateCustomers N w = some (cs, w1) ∧ (cs.length : Int) = N ∧
      (∀ (i : Nat) (c : Customer), cs[i]? = some c → c.ID = (i : Int) + 1) ∧
      (N = 0 → cs = []) := by
  obtain ⟨cs, w1, h, hlen, hall⟩ := generateCustomers_spec hN hsize w
  refine ⟨cs, w1, h, hlen, hall, ?_⟩
  intro h0
  apply List.eq_nil_of_length_eq_zero
  omega

/-- Instance of C1 (amended) at `N = 3`. -/
theorem generateCustomers_count_and_ids_witness :
    ∃ cs w1, generateCustomers 3 (countingWorld 0) = some (cs, w1) ∧ (cs.length : Int) = 3 ∧
      (∀ (i : Nat) (c : Customer), cs[i]? = some c → c.ID = (i : Int) + 1) ∧
      ((3 : Int) = 0 → cs = []) :=
  generateCustomers_count_and_ids 3 (countingWorld 0) (by decide) (by decide)

/-- C2 (the code at the failing input): two customers with exactly one order
each, vocabulary `["A", "B"]`, `randomStatus = false`.  Whatever the draws, two
orders are returned and the order at global position 1 has status `"A"`,
whereas cycling by the global position asks for `vocabulary[1 mod 2] = "B"`. -/
theorem generateOrders_status_cycle_restarts (w : World) :
    ∃ o0 o1 w1,
      generateOrders [⟨1, "n1", "e1"⟩, ⟨2, "n2", "e2"⟩] 1 1 ["A", "B"] false w
        = some ([o0, o1], w1) ∧
      o0.Status = "A" ∧ o1.Status = "A" ∧
      index ["A", "B"] (Int.tmod 1 (["A", "B"] : List String).length) = some "B" := by
  obtain ⟨os, w1, h⟩ := generateOrders_total [⟨1, "n1", "e1"⟩, ⟨2, "n2", "e2"⟩] 1 1
    ["A", "B"] false w (by simp) (le_refl _) (by decide)
  obtain ⟨w0, lid, hloop⟩ := generateOrders_inv h
  obtain ⟨blocks, hflat, hfor⟩ := generateOrdersLoop_blocks _ hloop
  cases hfor with
  | cons hb1 hrest =>
    cases hrest with
    | cons hb2 hnil =>
      cases hnil
      rename_i b1 b2
      have hl1 := blockInv_bounds (le_of_lt Int.one_pos) (le_refl _) (by decide) hb1
      have hl2 := blockInv_bounds (le_of_lt Int.one_pos) (le_refl _) (by decide) hb2
      have e1 : b1.length = 1 := by omega
      have e2 : b2.length = 1 := by omega
      obtain ⟨o0, rfl⟩ := List.length_eq_one.mp e1
      obtain ⟨o1, rfl⟩ := List.length_eq_one.mp e2
      obtain ⟨_, hi0⟩ := hb1.2 0 o0 rfl
      obtain ⟨_, hi1⟩ := hb2.2 0 o1 rfl
      have s0 := hi0.2.2.2.2.2.2.1 rfl
      have s1 := hi1.2.2.2.2.2.2.1 rfl
      have hz : index ["A", "B"] (Int.tmod ((0 : Nat) : Int) (["A", "B"] : List String).length)
          = some "A" := by decide
      rw [hz] at s0 s1
      simp only [Option.some.injEq] at s0 s1
      refine ⟨o0, o1, w1, ?_, s0.symm, s1.symm, by decide⟩
      rw [h, hflat]
      rfl

/-- C3: for `0 ≤ min ≤ max` (as 64-bit `int`s), a non-empty vocabulary, either
value of `randomStatus` and every state of the random source, the length `L` of
any sequence returned by `generateOrders` satisfies
`len(customers) * min ≤ L ≤ len(customers) * max`; and a sequence is returned
whenever `max - min + 1` does not overflow. -/
theorem generateOrders_length_bounds (customers : List Customer) (minOrders maxOrders : Int)
    (statuses : List String) (randomStatus : Bool) (w : World)
    (hmin : 0 ≤ minOrders) (hle : minOrders ≤ maxOrders) (hint : maxOrders ≤ maxInt)
    (hst : statuses ≠ []) :
    (∀ orders w1,
        generateOrders customers minOrders maxOrders statuses randomStatus w = some (orders, w1) →
        (customers.length : Int) * minOrders ≤ orders.length ∧
          (orders.length : Int) ≤ customers.length * maxOrders) ∧
      (maxOrders - minOrders < maxInt → ∃ orders w1,
        generateOrders customers minOrders maxOrders statuses randomStatus w
          = some (orders, w1)) := by
  refine ⟨?_, fun hno => generateOrders_total customers _ _ _ randomStatus w hst hle hno⟩
  intro orders w1 h
  obtain ⟨w0, lid, hloop⟩ := generateOrders_inv h
  obtain ⟨blocks, hflat, hfor⟩ := generateOrdersLoop_blocks customers hloop
  subst hflat
  exact blocks_length_bounds hmin hle hint hfor

/-- Instance of C3: two customers, between 1 and 3 orders each. -/
theorem generateOrders_length_bounds_witness :
    (∀ orders w1,
        generateOrders [⟨1, "n1", "e1"⟩, ⟨2, "n2", "e2"⟩] 1 3 ["A", "B"] true (countingWorld 0)
          = some (orders, w1) →
        (([⟨1, "n1", "e1"⟩, ⟨2, "n2", "e2"⟩] : List Customer).length : Int) * 1 ≤ orders.length ∧
          (orders.length : Int)
            ≤ ([⟨1, "n1", "e1"⟩, ⟨2, "n2", "e2"⟩] : List Customer).length * 3) ∧
      ((3 : Int) - 1 < maxInt → ∃ orders w1,
        generateOrders [⟨1, "n1", "e1"⟩, ⟨2, "n2", "e2"⟩] 1 3 ["A", "B"] true (countingWorld 0)
          = some (orders, w1)) :=
  generateOrders_length_bounds [⟨1, "n1", "e1"⟩, ⟨2, "n2", "e2"⟩] 1 3 ["A", "B"] true
    (countingWorld 0) (by decide) (by decide) (by decide) (by simp)

/-- C4: for `min ≤ max`, a non-empty vocabulary and every state of the random
source, the order at 0-based position `i` of any sequence returned by
`generateOrders` has `ID = i + 1` (ids start at 1, are contiguous and strictly
increasing across all customers); and a sequence is returned whenever
`max - min + 1` does not overflow. -/
theorem generateOrders_ids_sequential (customers : List Customer) (minOrders maxOrders : Int)
    (statuses : List String) (randomStatus : Bool) (w : World)
    (hle : minOrders ≤ maxOrders) (hst : statuses ≠ []) :
    (∀ orders w1,
        generateOrders customers minOrders maxOrders statuses randomStatus w = some (orders, w1) →
        ∀ (i : Nat) (o : Order), orders[i]? = some o → o.ID = (i : Int) + 1) ∧
      (maxOrders - minOrders < maxInt → ∃ orders w1,
        generateOrders customers minOrders maxOrders statuses randomStatus w
          = some (orders, w1)) := by
  refine ⟨?_, fun hno => generateOrders_total customers _ _ _ randomStatus w hst hle hno⟩
  intro orders w1 h i o hi
  obtain ⟨w0, lid, hloop⟩ := generateOrders_inv h
  rw [(generateOrdersLoop_ids customers hloop).2 i o hi]
  ring

/-- Instance of C4: two customers, between 1 and 3 orders each. -/
theorem generateOrders_ids_sequential_witness :
    (∀ orders w1,
        generateOrders [⟨1, "n1", "e1"⟩, ⟨2, "n2", "e2"⟩] 1 3 ["A", "B"] false (countingWorld 0)
          = some (orders, w1) →
        ∀ (i : Nat) (o : Order), orders[i]? = some o → o.ID = (i : Int) + 1) ∧
      ((3 : Int) - 1 < maxInt → ∃ orders w1,
        generateOrders [⟨1, "n1", "e1"⟩, ⟨2, "n2", "e2"⟩] 1 3 ["A", "B"] false (countingWorld 0)
          = some (orders, w1)) :=
  generateOrders_ids_sequential [⟨1, "n1", "e1"⟩, ⟨2, "n2", "e2"⟩] 1 3 ["A", "B"] false
    (countingWorld 0) (by decide) (by simp)

/-- C5: for every `N ≥ 0` that `make` accepts (`40 * N ≤ maxAlloc` bytes),
`generateCustomers N` returns a customer sequence
such that every order of any sequence `generateOrders` returns for it has
`1 ≤ CustomerID ≤ N` and `CustomerID` is the `ID` of exactly one position of
the customer sequence; and orders are returned for it whenever the vocabulary
is non-empty, `min ≤ max` and `max - min + 1` does not overflow. -/
theorem generateOrders_customerID_valid (N : Int) (w : World) (hN : 0 ≤ N)
    (hsize : customerSize * N ≤ maxAlloc) :
    ∃ customers w0, generateCustomers N w = some (customers, w0) ∧
      (∀ minOrders maxOrders statuses randomStatus w1 orders w2,
        generateOrders customers minOrders maxOrders statuses randomStatus w1
          = some (orders, w2) →
        ∀ o ∈ orders, 1 ≤ o.CustomerID ∧ o.CustomerID ≤ N ∧
          ∃! i : Nat, ∃ c, customers[i]? = some c ∧ c.ID = o.CustomerID) ∧
      (∀ (minOrders maxOrders : Int) (statuses : List String) (randomStatus : Bool)
          (w1 : World), statuses ≠ [] → minOrders ≤ maxOrders →
        maxOrders - minOrders < maxInt → ∃ orders w2,
          generateOrders customers minOrders maxOrders statuses randomStatus w1
            = some (orders, w2)) := by
  obtain ⟨cs, w0, hgen, hlen, hids⟩ := generateCustomers_spec hN hsize w
  refine ⟨cs, w0, hgen, ?_, fun mn mx st rs w1 hst hle hno =>
    generateOrders_total cs mn mx st rs w1 hst hle hno⟩
  intro mn mx st rs w1 os w2 h o ho
  obtain ⟨c, hc, id, n, hinv⟩ := generateOrders_mem h ho
  obtain ⟨i, hi⟩ := List.mem_iff_getElem?.mp hc
  have hilt : i < cs.length := by
    by_contra hcon
    rw [List.getElem?_eq_none (by omega)] at hi
    exact Option.noConfusion hi
  have hcid : o.CustomerID = (i : Int) + 1 := by rw [hinv.2.1, hids i c hi]
  refine ⟨by omega, by omega, i, ⟨c, hi, by rw [hinv.2.1]⟩, ?_⟩
  rintro k ⟨c1, hk, hk1⟩
  have := hids k c1 hk
  omega

/-- Instance of C5 at `N = 2`. -/
theorem generateOrders_customerID_valid_witness :
    ∃ customers w0, generateCustomers 2 (countingWorld 0) = some (customers, w0) ∧
      (∀ minOrders maxOrders statuses randomStatus w1 orders w2,
        generateOrders customers minOrders maxOrders statuses randomStatus w1
          = some (orders, w2) →
        ∀ o ∈ orders, 1 ≤ o.CustomerID ∧ o.CustomerID ≤ 2 ∧
          ∃! i : Nat, ∃ c, customers[i]? = some c ∧ c.ID = o.CustomerID) ∧
      (∀ (minOrders maxOrders : Int) (statuses : List String) (randomStatus : Bool)
          (w1 : World), statuses ≠ [] → minOrders ≤ maxOrders →
        maxOrders - minOrders < maxInt → ∃ orders w2,
          generateOrders customers minOrders maxOrders statuses randomStatus w1
            = some (orders, w2)) :=
  generateOrders_customerID_valid 2 (countingWorld 0) (by decide) (by decide)

/-- C6: for `min ≤ max`, a non-empty vocabulary, both values of `randomStatus`
and every state of the random source, the `Status` of every order of any
sequence returned by `generateOrders` is an element of the vocabulary; and a
sequence is returned whenever `max - min + 1` does not overflow. -/
theorem generateOrders_status_mem (customers : List Customer) (minOrders maxOrders : Int)
    (statuses : List String) (randomStatus : Bool) (w : World)
    (hle : minOrders ≤ maxOrders) (hst : statuses ≠ []) :
    (∀ orders w1,
        generateOrders customers minOrders maxOrders statuses randomStatus w = some (orders, w1) →
        ∀ o ∈ orders, o.Status ∈ statuses) ∧
      (maxOrders - minOrders < maxInt → ∃ orders w1,
        generateOrders customers minOrders maxOrders statuses randomStatus w
          = some (orders, w1)) := by
  refine ⟨?_, fun hno => generateOrders_total customers _ _ _ randomStatus w hst hle hno⟩
  intro orders w1 h o ho
  obtain ⟨c, -, id, n, hinv⟩ := generateOrders_mem h ho
  exact hinv.2.2.2.2.1

/-- Instance of C6: random statuses, two customers, 2 to 4 orders each. -/
theorem generateOrders_status_mem_witness :
    (∀ orders w1,
        generateOrders [⟨1, "n1", "e1"⟩, ⟨2, "n2", "e2"⟩] 2 4 ["A", "B", "C"] true
          (countingWorld 0) = some (orders, w1) →
        ∀ o ∈ orders, o.Status ∈ ["A", "B", "C"]) ∧
      ((4 : Int) - 2 < maxInt → ∃ orders w1,
        generateOrders [⟨1, "n1", "e1"⟩, ⟨2, "n2", "e2"⟩] 2 4 ["A", "B", "C"] true
          (countingWorld 0) = some (orders, w1)) :=
  generateOrders_status_mem [⟨1, "n1", "e1"⟩, ⟨2, "n2", "e2"⟩] 2 4 ["A", "B", "C"] true
    (countingWorld 0) (by decide) (by simp)

/-- C7: for `min ≤ max`, a non-empty vocabulary and every state of the random
source, every order of any sequence returned by `generateOrders` has a
`Quantity` between 1 and 9; and a sequence is returned whenever
`max - min + 1` does not overflow. -/
theorem generateOrders_quantity_range (customers : List Customer) (minOrders maxOrders : Int)
    (statuses : List String) (randomStatus : Bool) (w : World)
    (hle : minOrders ≤ maxOrders) (hst : statuses ≠ []) :
    (∀ orders w1,
        generateOrders customers minOrders maxOrders statuses randomStatus w = some (orders, w1) →
        ∀ o ∈ orders, 1 ≤ o.Quantity ∧ o.Quantity ≤ 9) ∧
      (maxOrders - minOrders < maxInt → ∃ orders w1,
        generateOrders customers minOrders maxOrders statuses randomStatus w
          = some (orders, w1)) := by
  refine ⟨?_, fun hno => generateOrders_total customers _ _ _ randomStatus w hst hle hno⟩
  intro orders w1 h o ho
  obtain ⟨c, -, id, n, hinv⟩ := generateOrders_mem h ho
  exact ⟨hinv.2.2.1, hinv.2.2.2.1⟩

/-- Instance of C7: one customer with 5 to 10 orders. -/
theorem generateOrders_quantity_range_witness :
    (∀ orders w1,
        generateOrders [⟨1, "n1", "e1"⟩] 5 10 ["Pending", "Shipped"] true (constWorld 8 0)
          = some (orders, w1) →
        ∀ o ∈ orders, 1 ≤ o.Quantity ∧ o.Quantity ≤ 9) ∧
      ((10 : Int) - 5 < maxInt → ∃ orders w1,
        generateOrders [⟨1, "n1", "e1"⟩] 5 10 ["Pending", "Shipped"] true (constWorld 8 0)
          = some (orders, w1)) :=
  generateOrders_quantity_range [⟨1, "n1", "e1"⟩] 5 10 ["Pending", "Shipped"] true
    (constWorld 8 0) (by decide) (by simp)

/-- C8: for `0 ≤ min ≤ max` (as 64-bit `int`s) and every state of the random
source, any sequence returned by `generateOrders` is the concatenation, in
customer order, of one block per customer, block `i` consisting of `K_i` orders
that all have `CustomerID = c_i.ID`, with `min ≤ K_i ≤ max`; and a sequence is
returned whenever the vocabulary is non-empty and `max - min + 1` does not
overflow. -/
theorem generateOrders_blocks (customers : List Customer) (minOrders maxOrders : Int)
    (statuses : List String) (randomStatus : Bool) (w : World)
    (hmin : 0 ≤ minOrders) (hle : minOrders ≤ maxOrders) (hint : maxOrders ≤ maxInt) :
    (∀ orders w1,
        generateOrders customers minOrders maxOrders statuses randomStatus w = some (orders, w1) →
        ∃ blocks : List (List Order), orders = blocks.flatten ∧
          List.Forall₂ (fun (c : Customer) (b : List Order) =>
            minOrders ≤ (b.length : Int) ∧ (b.length : Int) ≤ maxOrders ∧
            ∀ o ∈ b, o.CustomerID = c.ID) customers blocks) ∧
      (statuses ≠ [] → maxOrders - minOrders < maxInt → ∃ orders w1,
        generateOrders customers minOrders maxOrders statuses randomStatus w
          = some (orders, w1)) := by
  refine ⟨?_, fun hst hno => generateOrders_total customers _ _ _ randomStatus w hst hle hno⟩
  intro orders w1 h
  obtain ⟨w0, lid, hloop⟩ := generateOrders_inv h
  obtain ⟨blocks, hflat, hfor⟩ := generateOrdersLoop_blocks customers hloop
  refine ⟨blocks, hflat, hfor.imp ?_⟩
  intro c b hb
  obtain ⟨hlo, hhi⟩ := blockInv_bounds hmin hle hint hb
  refine ⟨hlo, hhi, ?_⟩
  intro o ho
  obtain ⟨n, hn⟩ := List.mem_iff_getElem?.mp ho
  obtain ⟨id, hinv⟩ := hb.2 n o hn
  exact hinv.2.1

/-- Instance of C8: three customers, between 0 and 2 orders each. -/
theorem generateOrders_blocks_witness :
    (∀ orders w1,
        generateOrders [⟨1, "n1", "e1"⟩, ⟨2, "n2", "e2"⟩, ⟨3, "n3", "e3"⟩] 0 2 ["A"] false
          (countingWorld 0) = some (orders, w1) →
        ∃ blocks : List (List Order), orders = blocks.flatten ∧
          List.Forall₂ (fun (c : Customer) (b : List Order) =>
            (0 : Int) ≤ (b.length : Int) ∧ (b.length : Int) ≤ 2 ∧
            ∀ o ∈ b, o.CustomerID = c.ID)
            [⟨1, "n1", "e1"⟩, ⟨2, "n2", "e2"⟩, ⟨3, "n3", "e3"⟩] blocks) ∧
      (["A"] ≠ [] → (2 : Int) - 0 < maxInt → ∃ orders w1,
        generateOrders [⟨1, "n1", "e1"⟩, ⟨2, "n2", "e2"⟩, ⟨3, "n3", "e3"⟩] 0 2 ["A"] false
          (countingWorld 0) = some (orders, w1)) :=
  generateOrders_blocks [⟨1, "n1", "e1"⟩, ⟨2, "n2", "e2"⟩, ⟨3, "n3", "e3"⟩] 0 2 ["A"] false
    (countingWorld 0) (by decide) (by decide) (by decide)

/-- C9 (the code on the end-to-end scenario): with `customers=3`,
`minOrders=1`, `maxOrders=1`, `statuses="A,B"`, `randomStatus=false`, whatever
the draws, `main` builds 4 customer rows and 4 order rows (header + 3), the
orders have the ids 1, 2, 3, and their statuses are `A, A, A` (the scenario
asks for `A, B, A`). -/
theorem mainRows_end_to_end (w : World) :
    ∃ customers orders customerRows orderRows w1,
      mainRows { customers := 3, minOrders := 1, maxOrders := 1, statuses := "A,B",
                 randomStatus := false } w
        = some (customers, orders, customerRows, orderRows, w1) ∧
      customerRows.length = 4 ∧ orderRows.length = 4 ∧
      orders.map (fun o => o.ID) = [1, 2, 3] ∧
      orders.map (fun o => o.Status) = ["A", "A", "A"] ∧
      orderRows.map (fun row => row.getLast?)
        = [some "status", some "A", some "A", some "A"] := by
  obtain ⟨cs, w0, hgen, hlen, -⟩ := generateCustomers_spec (N := 3) (by decide) (by decide) w
  obtain ⟨c1, c2, c3, rfl⟩ := List.length_eq_three.mp (by omega : cs.length = 3)
  have hsplit : stringsSplit "A,B" = ["A", "B"] := by decide
  obtain ⟨os, w1, h⟩ := generateOrders_total [c1, c2, c3] 1 1 ["A", "B"] false w0 (by simp)
    (le_refl _) (by decide)
  obtain ⟨w2, lid, hloop⟩ := generateOrders_inv h
  obtain ⟨blocks, hflat, hfor⟩ := generateOrdersLoop_blocks _ hloop
  obtain ⟨-, hids⟩ := generateOrdersLoop_ids _ hloop
  have hz : index ["A", "B"] (Int.tmod ((0 : Nat) : Int) (["A", "B"] : List String).length)
      = some "A" := by decide
  have hone : ∀ (c : Customer) (b : List Order), blockInv 1 1 ["A", "B"] false c b →
      ∃ o, b = [o] ∧ o.Status = "A" := by
    intro c b hb
    have hl := blockInv_bounds (le_of_lt Int.one_pos) (le_refl _) (by decide) hb
    have e1 : b.length = 1 := by omega
    obtain ⟨o, rfl⟩ := List.length_eq_one.mp e1
    obtain ⟨_, hi⟩ := hb.2 0 o rfl
    have s := hi.2.2.2.2.2.2.1 rfl
    rw [hz] at s
    exact ⟨o, rfl, (Option.some.inj s).symm⟩
  cases hfor with
  | cons hb1 hrest =>
    cases hrest with
    | cons hb2 hrest =>
      cases hrest with
      | cons hb3 hrest =>
        cases hrest
        obtain ⟨o1, rfl, s1⟩ := hone _ _ hb1
        obtain ⟨o2, rfl, s2⟩ := hone _ _ hb2
        obtain ⟨o3, rfl, s3⟩ := hone _ _ hb3
        have hos : os = [o1, o2, o3] := by rw [hflat]; rfl
        subst hos
        have i1 := hids 0 o1 rfl
        have i2 := hids 1 o2 rfl
        have i3 := hids 2 o3 rfl
        refine ⟨[c1, c2, c3], [o1, o2, o3], customerCSV [c1, c2, c3],
          orderCSV [o1, o2, o3], w1, ?_, ?_, ?_, ?_, ?_, ?_⟩
        · apply mainRows_eq _ w hgen
          show generateOrders [c1, c2, c3] 1 1
            (stringsSplit (if "A,B" = "" then "Pending,Processing,Shipped,Delivered" else "A,B"))
            false w0 = some ([o1, o2, o3], w1)
          rw [if_neg (by decide), hsplit, h]
        · simp [customerCSV]
        · simp [orderCSV]
        · simp [i1, i2, i3]
        · simp [s1, s2, s3]
        · simp [orderCSV, s1, s2, s3]

/-! ## The row writer: stated properties -/

/-- C10 (the universal round trip fails): on a file system where nothing
fails, `writeCSV` returns `nil` and yet reading the written text back with the
CSV reader does not yield the rows written: rows of different lengths are
refused, a row that is a single empty field (or has no field) is lost, and
`\r\n` inside a field comes back as `\n`. -/
theorem writeCSV_roundtrip_counterexample :
    ((writeCSV "test.csv" [["a"], ["b", "c"]] emptyFS).1 = none ∧
      (writeCSV "test.csv" [["a"], ["b", "c"]] emptyFS).2.files "test.csv"
        = some "a\nb,c\n".toList ∧
      csvReadAll "a\nb,c\n".toList = .error .fieldCount) ∧
    ((writeCSV "test.csv" [[""]] emptyFS).2.files "test.csv" = some "\n".toList ∧
      csvReadAll "\n".toList = .ok []) ∧
    ((writeCSV "test.csv" [[]] emptyFS).2.files "test.csv" = some "\n".toList) ∧
    ((writeCSV "test.csv" [["a\r\nb"]] emptyFS).2.files "test.csv"
        = some "\"a\r\nb\"\n".toList ∧
      csvReadAll "\"a\r\nb\"\n".toList = .ok [["a\nb"]]) := by
  refine ⟨⟨?_, ?_, ?_⟩, ⟨?_, ?_⟩, ?_, ⟨?_, ?_⟩⟩
  · rfl
  · rw [writeCSV_ok _ _ _ rfl rfl]; decide
  · rfl
  · rw [writeCSV_ok _ _ _ rfl rfl]; decide
  · rfl
  · rw [writeCSV_ok _ _ _ rfl rfl]; decide
  · rw [writeCSV_ok _ _ _ rfl rfl]; decide
  · rfl

/-- C10 (amended): on a file system where creating and writing the file do not
fail, for every sequence of rows that all have the same number `n ≥ 1` of
fields, none being a single empty field and no field containing `\r\n`,
`writeCSV` returns `nil`, the file then holds a text, and `ReadAll` on that
text yields exactly the rows written, in order. -/
theorem writeCSV_roundtrip (filename : String) (data : List (List String)) (fs : FileSystem)
    (n : Nat) (hn : 0 < n) (hlen : ∀ r ∈ data, r.length = n) (hne : ∀ r ∈ data, r ≠ [""])
    (hcr : ∀ r ∈ data, ∀ f ∈ r, hasCRLF f.data = false)
    (hc : fs.createErr filename = none) (hw : fs.writeErr filename = none) :
    (writeCSV filename data fs).1 = none ∧
      ∃ text, (writeCSV filename data fs).2.files filename = some text ∧
        csvReadAll text = .ok data := by
  rw [writeCSV_ok filename data fs hc hw]
  refine ⟨rfl, encodeAll data, ?_, csvReadAll_encodeAll n hn data hlen hne hcr⟩
  simp [FileSystem.setFile]

/-- Instance of C10 (amended) at the rows `[["ID","Name"],["1","Alice"],["2","Bob"]]`. -/
theorem writeCSV_roundtrip_witness :
    (writeCSV "test.csv" [["ID", "Name"], ["1", "Alice"], ["2", "Bob"]] emptyFS).1 = none ∧
      ∃ text,
        (writeCSV "test.csv" [["ID", "Name"], ["1", "Alice"], ["2", "Bob"]] emptyFS).2.files
          "test.csv" = some text ∧
        csvReadAll text = .ok [["ID", "Name"], ["1", "Alice"], ["2", "Bob"]] :=
  writeCSV_roundtrip "test.csv" [["ID", "Name"], ["1", "Alice"], ["2", "Bob"]] emptyFS 2
    (by decide) (by decide) (by decide) (by decide) rfl rfl

/-! ## Second group of stated properties -/

/-- C12: for every `N ≥ 0` that `make` accepts (`40 * N ≤ maxAlloc` bytes) and
every state of the random source, `generateCustomers N` returns customers whose `Name` has exactly 10 characters
and whose `Email` is 5 characters followed by `"@example.com"`; so names and
emails are non-empty and every email contains `'@'`. -/
theorem generateCustomers_name_email (N : Int) (w : World) (hN : 0 ≤ N)
    (hsize : customerSize * N ≤ maxAlloc) :
    ∃ cs w1, generateCustomers N w = some (cs, w1) ∧
      ∀ c ∈ cs, c.Name.length = 10 ∧
        (∃ user : String, user.length = 5 ∧ c.Email = user ++ "@example.com") ∧
        c.Email.length = 17 ∧ c.Name ≠ "" ∧ c.Email ≠ "" ∧ '@' ∈ c.Email.data := by
  obtain ⟨cs, w1, h, -, -⟩ := generateCustomers_spec hN hsize w
  refine ⟨cs, w1, h, ?_⟩
  have hloop : generateCustomersLoop N.toNat 0 w = some (cs, w1) :=
    (generateCustomers_inv h).2.2.2.2
  intro c hc
  obtain ⟨hname, user, huser, hemail⟩ := generateCustomersLoop_names _ _ _ _ _ hloop c hc
  have hlen : c.Email.length = 17 := by
    rw [hemail, String.length_append, huser]
    rfl
  refine ⟨hname, ⟨user, huser, hemail⟩, hlen, ?_, ?_, ?_⟩
  · intro h0
    rw [h0] at hname
    exact absurd hname (by decide)
  · intro h0
    rw [h0] at hlen
    exact absurd hlen (by decide)
  · rw [hemail]
    simp [String.data_append]

/-- Instance of C12 at `N = 4`. -/
theorem generateCustomers_name_email_witness :
    ∃ cs w1, generateCustomers 4 (constWorld 7 0) = some (cs, w1) ∧
      ∀ c ∈ cs, c.Name.length = 10 ∧
        (∃ user : String, user.length = 5 ∧ c.Email = user ++ "@example.com") ∧
        c.Email.length = 17 ∧ c.Name ≠ "" ∧ c.Email ≠ "" ∧ '@' ∈ c.Email.data :=
  generateCustomers_name_email 4 (constWorld 7 0) (by decide) (by decide)

/-- C17 (the panic at the overflow): one customer, `min = 0`,
`max = 9223372036854775807`, vocabulary `["A"]`: `min ≤ max` holds, but
`max - min + 1` wraps around to `-9223372036854775808` and `rand.Intn`
panics. -/
theorem generateOrders_panics_on_overflow :
    (0 : Int) ≤ maxInt ∧ (["A"] : List String) ≠ [] ∧
      wrapInt (maxInt - 0 + 1) = -2 ^ 63 ∧
      generateOrders [⟨1, "n1", "e1"⟩] 0 maxInt ["A"] true (constWorld 0 0) = none := by
  refine ⟨by decide, by simp, by decide, ?_⟩
  exact generateOrders_panic_of_nonpos _ _ _ _ _ (by decide)

/-- C17 (amended): for every customer sequence, every `min ≤ max` whose
difference `max - min + 1` does not overflow a 64-bit `int` (or an empty
customer sequence), and every non-empty vocabulary, `generateOrders` returns
for every state of the random source: all five arguments of `rand.Intn` are
positive and no index is out of range. -/
theorem generateOrders_no_panic (customers : List Customer) (minOrders maxOrders : Int)
    (statuses : List String) (randomStatus : Bool) (w : World)
    (hle : minOrders ≤ maxOrders) (hst : statuses ≠ [])
    (hno : customers = [] ∨ maxOrders - minOrders < maxInt) :
    (∃ orders w1,
        generateOrders customers minOrders maxOrders statuses randomStatus w
          = some (orders, w1)) ∧
      (0 : Int) < statuses.length ∧ (0 : Int) < products.length ∧
      (maxOrders - minOrders < maxInt → 0 < wrapInt (maxOrders - minOrders + 1)) := by
  refine ⟨?_, ?_, by decide, ?_⟩
  · rcases hno with h | h
    · subst h
      exact ⟨_, _, generateOrders_nil _ _ _ _ _⟩
    · exact generateOrders_total customers _ _ _ randomStatus w hst hle h
  · have : 0 < statuses.length := List.length_pos.mpr hst
    omega
  · intro h
    unfold maxInt at h
    rw [wrapInt_eq_self (by omega) (by omega)]
    omega

/-- Instance of C17 (amended): the flag defaults `minOrders = 5`,
`maxOrders = 10`. -/
theorem generateOrders_no_panic_witness :
    (∃ orders w1,
        generateOrders [⟨1, "n1", "e1"⟩, ⟨2, "n2", "e2"⟩] 5 10 ["Pending", "Shipped"] true
          (countingWorld 0) = some (orders, w1)) ∧
      (0 : Int) < (["Pending", "Shipped"] : List String).length ∧
      (0 : Int) < products.length ∧
      ((10 : Int) - 5 < maxInt → 0 < wrapInt (10 - 5 + 1)) :=
  generateOrders_no_panic [⟨1, "n1", "e1"⟩, ⟨2, "n2", "e2"⟩] 5 10 ["Pending", "Shipped"] true
    (countingWorld 0) (by decide) (by simp) (Or.inr (by decide))

/-- C18: with `randomStatus = false`, for `0 ≤ min ≤ max` (as 64-bit `int`s), a
non-empty vocabulary and every state of the random source, any sequence
returned by `generateOrders` splits into one block per customer (the orders
with that customer's id, between `min` and `max` of them), and the `k`-th order
of every block has status `vocabulary[k mod len(vocabulary)]`, the first one
`vocabulary[0]`; and a sequence is returned whenever `max - min + 1` does not
overflow. -/
theorem generateOrders_status_per_customer (customers : List Customer)
    (minOrders maxOrders : Int) (statuses : List String) (w : World)
    (hmin : 0 ≤ minOrders) (hle : minOrders ≤ maxOrders) (hint : maxOrders ≤ maxInt)
    (hst : statuses ≠ []) :
    (∀ orders w1,
        generateOrders customers minOrders maxOrders statuses false w = some (orders, w1) →
        ∃ blocks : List (List Order), orders = blocks.flatten ∧
          List.Forall₂ (fun (c : Customer) (b : List Order) =>
            minOrders ≤ (b.length : Int) ∧ (b.length : Int) ≤ maxOrders ∧
            (∀ o ∈ b, o.CustomerID = c.ID) ∧
            (∀ (k : Nat) (o : Order), b[k]? = some o →
              statuses[k % statuses.length]? = some o.Status) ∧
            (∀ o : Order, b[0]? = some o → statuses[0]? = some o.Status))
            customers blocks) ∧
      (maxOrders - minOrders < maxInt → ∃ orders w1,
        generateOrders customers minOrders maxOrders statuses false w = some (orders, w1)) := by
  refine ⟨?_, fun hno => generateOrders_total customers _ _ _ false w hst hle hno⟩
  intro orders w1 h
  obtain ⟨w0, lid, hloop⟩ := generateOrders_inv h
  obtain ⟨blocks, hflat, hfor⟩ := generateOrdersLoop_blocks customers hloop
  refine ⟨blocks, hflat, hfor.imp ?_⟩
  intro c b hb
  obtain ⟨hlo, hhi⟩ := blockInv_bounds hmin hle hint hb
  refine ⟨hlo, hhi, blockInv_customerID hb, blockInv_status hb, ?_⟩
  intro o ho
  have := blockInv_status hb 0 o ho
  rwa [Nat.zero_mod] at this

/-- Instance of C18: three customers, 2 or 3 orders each, vocabulary of two. -/
theorem generateOrders_status_per_customer_witness :
    (∀ orders w1,
        generateOrders [⟨1, "n1", "e1"⟩, ⟨2, "n2", "e2"⟩, ⟨3, "n3", "e3"⟩] 2 3 ["A", "B"] false
          (countingWorld 0) = some (orders, w1) →
        ∃ blocks : List (List Order), orders = blocks.flatten ∧
          List.Forall₂ (fun (c : Customer) (b : List Order) =>
            (2 : Int) ≤ (b.length : Int) ∧ (b.length : Int) ≤ 3 ∧
            (∀ o ∈ b, o.CustomerID = c.ID) ∧
            (∀ (k : Nat) (o : Order), b[k]? = some o →
              (["A", "B"] : List String)[k % (["A", "B"] : List String).length]?
                = some o.Status) ∧
            (∀ o : Order, b[0]? = some o → (["A", "B"] : List String)[0]? = some o.Status))
            [⟨1, "n1", "e1"⟩, ⟨2, "n2", "e2"⟩, ⟨3, "n3", "e3"⟩] blocks) ∧
      ((3 : Int) - 2 < maxInt → ∃ orders w1,
        generateOrders [⟨1, "n1", "e1"⟩, ⟨2, "n2", "e2"⟩, ⟨3, "n3", "e3"⟩] 2 3 ["A", "B"] false
          (countingWorld 0) = some (orders, w1)) :=
  generateOrders_status_per_customer [⟨1, "n1", "e1"⟩, ⟨2, "n2", "e2"⟩, ⟨3, "n3", "e3"⟩] 2 3
    ["A", "B"] (countingWorld 0) (by decide) (by decide) (by decide) (by simp)

/-- C19 (no panic although `max < min`): one customer,
`min = 9223372036854775807`, `max = -9223372036854775808`.  The argument
`max - min + 1` of `rand.Intn` wraps around to `2`; when the draw is `1`, the
count `1 + min` wraps around to a negative number and `generateOrders` returns
the empty sequence. -/
theorem generateOrders_inverted_range_returns :
    (-2 ^ 63 : Int) < maxInt ∧ wrapInt (-2 ^ 63 - maxInt + 1) = 2 ∧
      (generateOrders [⟨1, "n1", "e1"⟩] maxInt (-2 ^ 63) ["A"] false (constWorld 1 0)).map
        Prod.fst = some [] := by
  refine ⟨by decide, by decide, ?_⟩
  rfl

/-- C19 (amended): for every `max < min` whose difference `max - min + 1` does
not wrap around (it is at least `-2^63`), the argument of `rand.Intn` is `≤ 0`
and `generateOrders` panics on every non-empty customer sequence, before any
order is produced; on the empty customer sequence it returns the empty order
sequence, whatever `min` and `max` are. -/
theorem generateOrders_inverted_range (minOrders maxOrders : Int) (statuses : List String)
    (randomStatus : Bool) (w : World)
    (hlt : maxOrders < minOrders) (hwrap : -2 ^ 63 ≤ maxOrders - minOrders + 1) :
    wrapInt (maxOrders - minOrders + 1) ≤ 0 ∧
      (∀ (c : Customer) (cs : List Customer),
        generateOrders (c :: cs) minOrders maxOrders statuses randomStatus w = none) ∧
      (∀ (mn mx : Int), ∃ w1,
        generateOrders [] mn mx statuses randomStatus w = some ([], w1)) := by
  have hw : wrapInt (maxOrders - minOrders + 1) ≤ 0 := by
    rw [wrapInt_eq_self hwrap (by omega)]
    omega
  exact ⟨hw, fun c cs => generateOrders_panic_of_nonpos c cs _ _ _ hw,
    fun mn mx => ⟨_, generateOrders_nil mn mx _ _ _⟩⟩

/-- Instance of C19 (amended): `minOrders = 10`, `maxOrders = 5`. -/
theorem generateOrders_inverted_range_witness :
    wrapInt (5 - 10 + 1) ≤ 0 ∧
      (∀ (c : Customer) (cs : List Customer),
        generateOrders (c :: cs) 10 5 ["A", "B"] true (countingWorld 0) = none) ∧
      (∀ (mn mx : Int), ∃ w1,
        generateOrders [] mn mx ["A", "B"] true (countingWorld 0) = some ([], w1)) :=
  generateOrders_inverted_range 10 5 ["A", "B"] true (countingWorld 0) (by decide) (by decide)

/-- C20: for `min ≤ max`, a non-empty vocabulary and every fixed state of the
random source and the clock, `generateOrders` with `randomStatus = true` and
with `randomStatus = false` leave the random source and the clock in the same
state (they consume the same draws), return sequences of the same length, and
the orders at the same position agree in `ID`, `CustomerID`, `ProductName`,
`Quantity` and `OrderDate`; both return whenever `max - min + 1` does not
overflow. -/
theorem generateOrders_modes_agree (customers : List Customer) (minOrders maxOrders : Int)
    (statuses : List String) (w : World)
    (hle : minOrders ≤ maxOrders) (hst : statuses ≠ []) :
    (∀ os1 w1 os2 w2,
        generateOrders customers minOrders maxOrders statuses true w = some (os1, w1) →
        generateOrders customers minOrders maxOrders statuses false w = some (os2, w2) →
        w1 = w2 ∧ os1.length = os2.length ∧
          ∀ (i : Nat) (o1 o2 : Order), os1[i]? = some o1 → os2[i]? = some o2 →
            o1.ID = o2.ID ∧ o1.CustomerID = o2.CustomerID ∧
              o1.ProductName = o2.ProductName ∧ o1.Quantity = o2.Quantity ∧
              o1.OrderDate = o2.OrderDate) ∧
      (maxOrders - minOrders < maxInt → ∃ os1 os2 w1,
        generateOrders customers minOrders maxOrders statuses true w = some (os1, w1) ∧
        generateOrders customers minOrders maxOrders statuses false w = some (os2, w1)) := by
  have hsame := generateOrders_sameRun customers minOrders maxOrders statuses w
  constructor
  · intro os1 w1 os2 w2 h1 h2
    rcases hsame with ⟨hn, -⟩ | ⟨a1, a2, wa, ha1, ha2, hfor⟩
    · rw [hn] at h1
      exact Option.noConfusion h1
    · rw [ha1] at h1
      rw [ha2] at h2
      simp only [Option.some.injEq, Prod.mk.injEq] at h1 h2
      obtain ⟨rfl, rfl⟩ := h1
      obtain ⟨rfl, rfl⟩ := h2
      exact ⟨rfl, hfor.length_eq, fun i o1 o2 hi1 hi2 => forall₂_getElem? hfor i o1 o2 hi1 hi2⟩
  · intro hno
    obtain ⟨os, w1, h⟩ := generateOrders_total customers _ _ _ true w hst hle hno
    rcases hsame with ⟨hn, -⟩ | ⟨a1, a2, wa, ha1, ha2, -⟩
    · rw [hn] at h
      exact Option.noConfusion h
    · exact ⟨a1, a2, wa, ha1, ha2⟩

/-- Instance of C20: two customers, between 1 and 3 orders each. -/
theorem generateOrders_modes_agree_witness :
    (∀ os1 w1 os2 w2,
        generateOrders [⟨1, "n1", "e1"⟩, ⟨2, "n2", "e2"⟩] 1 3 ["A", "B"] true (countingWorld 0)
          = some (os1, w1) →
        generateOrders [⟨1, "n1", "e1"⟩, ⟨2, "n2", "e2"⟩] 1 3 ["A", "B"] false (countingWorld 0)
          = some (os2, w2) →
        w1 = w2 ∧ os1.length = os2.length ∧
          ∀ (i : Nat) (o1 o2 : Order), os1[i]? = some o1 → os2[i]? = some o2 →
            o1.ID = o2.ID ∧ o1.CustomerID = o2.CustomerID ∧
              o1.ProductName = o2.ProductName ∧ o1.Quantity = o2.Quantity ∧
              o1.OrderDate = o2.OrderDate) ∧
      ((3 : Int) - 1 < maxInt → ∃ os1 os2 w1,
        generateOrders [⟨1, "n1", "e1"⟩, ⟨2, "n2", "e2"⟩] 1 3 ["A", "B"] true (countingWorld 0)
          = some (os1, w1) ∧
        generateOrders [⟨1, "n1", "e1"⟩, ⟨2, "n2", "e2"⟩] 1 3 ["A", "B"] false (countingWorld 0)
          = some (os2, w1)) :=
  generateOrders_modes_agree [⟨1, "n1", "e1"⟩, ⟨2, "n2", "e2"⟩] 1 3 ["A", "B"]
    (countingWorld 0) (by decide) (by simp)

/-- C14 (the code on a full disk): the file can be created but writing to it
fails.  The two rows stay in the buffer of the `csv.Writer` until the deferred
`Flush`, whose error nobody reads: `writeCSV` returns `nil` and leaves an empty
file.  (When the file cannot be created, the error is returned.) -/
theorem writeCSV_drops_flush_error :
    fullDiskFS.createErr "customers.csv" = none ∧
      fullDiskFS.writeErr "customers.csv" = some { msg := "no space left on device" } ∧
      (writeCSV "customers.csv"
        [["customer_id", "customer_name", "email"], ["1", "Alice", "alice@example.com"]]
        fullDiskFS).1 = none ∧
      (writeCSV "customers.csv"
        [["customer_id", "customer_name", "email"], ["1", "Alice", "alice@example.com"]]
        fullDiskFS).2.files "customers.csv" = some [] ∧
      (writeCSV "customers.csv"
        [["customer_id", "customer_name", "email"], ["1", "Alice", "alice@example.com"]]
        readOnlyFS).1 = some { msg := "read-only file system" } := by
  refine ⟨rfl, rfl, ?_, ?_, ?_⟩
  · rw [writeCSV_unflushed _ _ _ rfl rfl (by decide)]
  · rw [writeCSV_unflushed _ _ _ rfl rfl (by decide)]
    simp [FileSystem.setFile]
  · rw [writeCSV_createErr _ _ _ rfl]

/-- C15: for every configuration, every state of the random source and every
clock, whenever the generation in `main` returns, the rows `main` hands to the
writer for `customers.csv` are the header `customer_id, customer_name, email`
followed by one row `[Itoa(ID), Name, Email]` per generated customer in
generation order, and those for `orders.csv` are the header `order_id,
customer_id, product_name, quantity, order_date, status` followed by one row
per generated order in generation order, with the fields in that column order.
The generation returns whenever `make` accepts the customer count
(`0 ≤ customers`, `40 * customers ≤ maxAlloc`) and either the count is zero or
`minOrders ≤ maxOrders` and `maxOrders - minOrders + 1` does not overflow. -/
theorem main_rows (flags : Flags) (w : World) :
    (∀ customers orders customerRows orderRows w1,
        mainRows flags w = some (customers, orders, customerRows, orderRows, w1) →
        (∃ w0, generateCustomers flags.customers w = some (customers, w0) ∧
          generateOrders customers flags.minOrders flags.maxOrders
            (stringsSplit (if flags.statuses = "" then "Pending,Processing,Shipped,Delivered"
              else flags.statuses)) flags.randomStatus w0 = some (orders, w1)) ∧
        customerRows.length = customers.length + 1 ∧
        customerRows[0]? = some ["customer_id", "customer_name", "email"] ∧
        (∀ (i : Nat) (c : Customer), customers[i]? = some c →
          customerRows[i + 1]? = some [itoa c.ID, c.Name, c.Email]) ∧
        orderRows.length = orders.length + 1 ∧
        orderRows[0]? = some ["order_id", "customer_id", "product_name", "quantity",
          "order_date", "status"] ∧
        (∀ (i : Nat) (o : Order), orders[i]? = some o →
          orderRows[i + 1]? = some [itoa o.ID, itoa o.CustomerID, o.ProductName,
            itoa o.Quantity, o.OrderDate, o.Status]) ∧
        (∀ fs : FileSystem, ∃ out, main flags w fs = some (out,
          (writeCSV "orders.csv" orderRows (writeCSV "customers.csv" customerRows fs).2).2))) ∧
      (0 ≤ flags.customers → customerSize * flags.customers ≤ maxAlloc →
        (flags.customers = 0 ∨ (flags.minOrders ≤ flags.maxOrders ∧
          flags.maxOrders - flags.minOrders < maxInt)) →
        ∃ res, mainRows flags w = some res) := by
  refine ⟨?_, fun hc hsize hrange => mainRows_total flags w hc hsize hrange⟩
  intro customers orders customerRows orderRows w1 h
  obtain ⟨w0, hgen, hord, hcr, hor⟩ := mainRows_inv h
  refine ⟨⟨w0, hgen, hord⟩, ?_, ?_, ?_, ?_, ?_, ?_, fun fs => ⟨_, main_eq h fs⟩⟩
  · rw [hcr]; simp [customerCSV]
  · rw [hcr]; simp [customerCSV]
  · intro i c hi
    rw [hcr]
    simp [customerCSV, hi]
  · rw [hor]; simp [orderCSV]
  · rw [hor]; simp [orderCSV]
  · intro i o hi
    rw [hor]
    simp [orderCSV, hi]

/-- Instance of C15: the flag defaults; and with no customers and
`minOrders = 10 > maxOrders = 5` the generation returns as well, the rows being
the two headers. -/
theorem main_rows_witness :
    ((∀ customers orders customerRows orderRows w1,
        mainRows defaultFlags (countingWorld 20758)
          = some (customers, orders, customerRows, orderRows, w1) →
        (∃ w0, generateCustomers defaultFlags.customers (countingWorld 20758)
            = some (customers, w0) ∧
          generateOrders customers defaultFlags.minOrders defaultFlags.maxOrders
            (stringsSplit (if defaultFlags.statuses = ""
              then "Pending,Processing,Shipped,Delivered" else defaultFlags.statuses))
            defaultFlags.randomStatus w0 = some (orders, w1)) ∧
        customerRows.length = customers.length + 1 ∧
        customerRows[0]? = some ["customer_id", "customer_name", "email"] ∧
        (∀ (i : Nat) (c : Customer), customers[i]? = some c →
          customerRows[i + 1]? = some [itoa c.ID, c.Name, c.Email]) ∧
        orderRows.length = orders.length + 1 ∧
        orderRows[0]? = some ["order_id", "customer_id", "product_name", "quantity",
          "order_date", "status"] ∧
        (∀ (i : Nat) (o : Order), orders[i]? = some o →
          orderRows[i + 1]? = some [itoa o.ID, itoa o.CustomerID, o.ProductName,
            itoa o.Quantity, o.OrderDate, o.Status]) ∧
        (∀ fs : FileSystem, ∃ out, main defaultFlags (countingWorld 20758) fs = some (out,
          (writeCSV "orders.csv" orderRows (writeCSV "customers.csv" customerRows fs).2).2))) ∧
      (0 ≤ defaultFlags.customers → customerSize * defaultFlags.customers ≤ maxAlloc →
        (defaultFlags.customers = 0 ∨ (defaultFlags.minOrders ≤ defaultFlags.maxOrders ∧
          defaultFlags.maxOrders - defaultFlags.minOrders < maxInt)) →
        ∃ res, mainRows defaultFlags (countingWorld 20758) = some res)) ∧
      (∃ res, mainRows defaultFlags (countingWorld 20758) = some res) ∧
      (mainRows emptyRunFlags (countingWorld 20758)).map (fun r => (r.2.2.1, r.2.2.2.1))
        = some ([["customer_id", "customer_name", "email"]],
          [["order_id", "customer_id", "product_name", "quantity", "order_date",
            "status"]]) :=
  ⟨main_rows defaultFlags (countingWorld 20758),
    (main_rows defaultFlags (countingWorld 20758)).2 (by decide) (by decide)
      (Or.inr ⟨by decide, by decide⟩),
    by decide⟩

/-- C16: for every configuration, every state of the random source, every
clock and every file system, whenever the generation in `main` returns, the
write of `orders.csv` is performed once, on the file system the write of
`customers.csv` leaves behind, whether that first write returned an error or
not; each error is printed on its own line, the final message is always
printed, the rows of either write do not depend on the file system, and
whenever `orders.csv` itself can be created and written it ends up with all
order rows.  The generation returns whenever `make` accepts the customer count
and either the count is zero or `minOrders ≤ maxOrders` and
`maxOrders - minOrders + 1` does not overflow. -/
theorem main_writes_both (flags : Flags) (w : World) (fs : FileSystem) :
    (∀ customers orders customerRows orderRows w1,
        mainRows flags w = some (customers, orders, customerRows, orderRows, w1) →
        ∃ out, main flags w fs = some (out,
            (writeCSV "orders.csv" orderRows (writeCSV "customers.csv" customerRows fs).2).2) ∧
          (∀ e, (writeCSV "customers.csv" customerRows fs).1 = some e →
            "Error writing customers.csv: " ++ e.msg ∈ out) ∧
          (∀ e, (writeCSV "orders.csv" orderRows
              (writeCSV "customers.csv" customerRows fs).2).1 = some e →
            "Error writing orders.csv: " ++ e.msg ∈ out) ∧
          out.getLast? = some "顧客マスタデータと注文データがCSVファイルとして保存されました。" ∧
          (fs.createErr "orders.csv" = none → fs.writeErr "orders.csv" = none →
            (writeCSV "orders.csv" orderRows
              (writeCSV "customers.csv" customerRows fs).2).1 = none ∧
            (writeCSV "orders.csv" orderRows
              (writeCSV "customers.csv" customerRows fs).2).2.files "orders.csv"
              = some (encodeAll orderRows))) ∧
      (0 ≤ flags.customers → customerSize * flags.customers ≤ maxAlloc →
        (flags.customers = 0 ∨ (flags.minOrders ≤ flags.maxOrders ∧
          flags.maxOrders - flags.minOrders < maxInt)) →
        ∃ res, mainRows flags w = some res) := by
  refine ⟨?_, fun hc hsize hrange => mainRows_total flags w hc hsize hrange⟩
  intro customers orders customerRows orderRows w1 h
  refine ⟨_, main_eq h fs, ?_, ?_, ?_, ?_⟩
  · intro e he
    rw [he]
    simp
  · intro e he
    rw [he]
    simp
  · simp
  · intro hcr hwr
    obtain ⟨o1, o2⟩ := writeCSV_preserves_oracles "customers.csv" customerRows fs
    rw [writeCSV_ok "orders.csv" orderRows _ (by rw [o1]; exact hcr) (by rw [o2]; exact hwr)]
    simp [FileSystem.setFile]

/-- Instance of C16: the flag defaults on a file system where `customers.csv`
cannot be created and `orders.csv` can; and with no customers and
`minOrders = 10 > maxOrders = 5` on that file system, `main` prints the error
of the first write and the final message, and `orders.csv` holds its header. -/
theorem main_writes_both_witness :
    ((∀ customers orders customerRows orderRows w1,
        mainRows defaultFlags (countingWorld 20758)
          = some (customers, orders, customerRows, orderRows, w1) →
        ∃ out, main defaultFlags (countingWorld 20758) customersLockedFS = some (out,
            (writeCSV "orders.csv" orderRows
              (writeCSV "customers.csv" customerRows customersLockedFS).2).2) ∧
          (∀ e, (writeCSV "customers.csv" customerRows customersLockedFS).1 = some e →
            "Error writing customers.csv: " ++ e.msg ∈ out) ∧
          (∀ e, (writeCSV "orders.csv" orderRows
              (writeCSV "customers.csv" customerRows customersLockedFS).2).1 = some e →
            "Error writing orders.csv: " ++ e.msg ∈ out) ∧
          out.getLast? = some "顧客マスタデータと注文データがCSVファイルとして保存されました。" ∧
          (customersLockedFS.createErr "orders.csv" = none →
            customersLockedFS.writeErr "orders.csv" = none →
            (writeCSV "orders.csv" orderRows
              (writeCSV "customers.csv" customerRows customersLockedFS).2).1 = none ∧
            (writeCSV "orders.csv" orderRows
              (writeCSV "customers.csv" customerRows customersLockedFS).2).2.files "orders.csv"
              = some (encodeAll orderRows))) ∧
      (0 ≤ defaultFlags.customers → customerSize * defaultFlags.customers ≤ maxAlloc →
        (defaultFlags.customers = 0 ∨ (defaultFlags.minOrders ≤ defaultFlags.maxOrders ∧
          defaultFlags.maxOrders - defaultFlags.minOrders < maxInt)) →
        ∃ res, mainRows defaultFlags (countingWorld 20758) = some res)) ∧
      (main emptyRunFlags (countingWorld 20758) customersLockedFS).map Prod.fst
        = some ["Error writing customers.csv: permission denied",
          "顧客マスタデータと注文データがCSVファイルとして保存されました。"] ∧
      (main emptyRunFlags (countingWorld 20758) customersLockedFS).bind
          (fun r => r.2.files "orders.csv")
        = some "order_id,customer_id,product_name,quantity,order_date,status\n".toList ∧
      (main emptyRunFlags (countingWorld 20758) customersLockedFS).bind
          (fun r => r.2.files "customers.csv") = none :=
  ⟨main_writes_both defaultFlags (countingWorld 20758) customersLockedFS,
    by decide, by decide, by decide⟩

end MakeTestData
